import Mathlib

/-!
# Verification of the constant folder (`src/dm/constants.rs`)

This file is a shallow embedding of the constant folder/evaluator of the
repository.  The single authoritative source file is `src/dm/constants.rs`;
the collaborating modules `objtree.rs` and `ast.rs` are not part of the
sources, so their data shapes (class tree nodes, declarations, the
expression AST) are modelled from the specification (sections 3, 4.2) and
from the way `constants.rs` uses them; those definitions carry a
`Modelled from the spec:` remark.

Machine integers (`i32`) are modelled as `Int` together with explicit
two's-complement wrapping (release-mode Rust semantics for `+`, `-`, `*`
and shifts; division by zero and overflowing division panic in every
profile).  `f32` values are modelled by Lean's `Float`; no claim inspects
a floating-point *value*, only the `Float` tag of results, which is why
the difference in precision is immaterial here.

The evaluator mutates the class tree while it runs and is mutually
recursive through the tree (resolving an identifier can force folding of
another class variable).  It is embedded as one fuel-indexed step function
`runF` over a task type `FTask`; fuel decreases at every internal call, so
the function is structurally recursive and computable by the kernel.
`Failure.fuelOut` is the out-of-fuel marker of the model; the adequacy
theorems show that enough fuel always exists, which is the model's
rendering of termination of the Rust code.
-/

set_option autoImplicit false

namespace DM

/-! ## Machine integers (i32, release-mode semantics) -/

/-- Two's-complement wrap of an integer into the `i32` range. -/
def wrap32 (n : Int) : Int := (n + 2 ^ 31) % 2 ^ 32 - 2 ^ 31

def i32add (a b : Int) : Int := wrap32 (a + b)

def i32sub (a b : Int) : Int := wrap32 (a - b)

def i32mul (a b : Int) : Int := wrap32 (a * b)

/-- The 32-bit two's-complement bit pattern of an i32 value. -/
def bits32 (a : Int) : Nat := (a % 2 ^ 32).toNat

/-- Interpret a 32-bit pattern as a signed value. -/
def signed32 (n : Nat) : Int := wrap32 (Int.ofNat n)

def i32bitor (a b : Int) : Int := signed32 (Nat.lor (bits32 a) (bits32 b))

def i32bitand (a b : Int) : Int := signed32 (Nat.land (bits32 a) (bits32 b))

/-- Release-mode Rust masks the shift amount: the right operand is
reinterpreted as `u32` and only its low five bits are used. -/
def shamt32 (b : Int) : Nat := bits32 b % 32

def i32shl (a b : Int) : Int := wrap32 (a * 2 ^ shamt32 b)

/-- Arithmetic right shift of an i32 equals flooring division by the
corresponding power of two. -/
def i32shr (a b : Int) : Int := Int.fdiv a (2 ^ shamt32 b)

/-- `{:02x}`: one lowercase hexadecimal digit. -/
def hexDigit (n : Nat) : Char :=
  if n < 10 then Char.ofNat (48 + n) else Char.ofNat (87 + n)

/-- `{:02x}` formatting of a value in `[0, 255]`: exactly two lowercase
hexadecimal digits. -/
def hex2 (n : Nat) : String := String.mk [hexDigit (n / 16 % 16), hexDigit (n % 16)]

/-- `::std::cmp::max(::std::cmp::min(i, 255), 0)` from the `rgb` branch. -/
def clampByte (i : Int) : Nat := (max (min i 255) 0).toNat

/-! ## The expression AST

Modelled from the spec: `ast.rs` is not among the sources.  The shapes
(`Expression::Base/BinaryOp/AssignOp`, the `Term` variants, `Follow`,
`Prefab`, `NewType`, path operators) follow section 3 and section 4.4 of
the specification and the pattern matches of `constants.rs`. -/

inductive PathOp where
  | slash
  | dot
  | colon
deriving DecidableEq

/-- A type path is a sequence of (separator, name) segments. -/
abbrev TypePath := List (PathOp × String)

inductive UnaryOp where
  | neg
  | not
  | bitNot
deriving DecidableEq

inductive BinaryOp where
  | add
  | sub
  | mul
  | div
  | bitOr
  | bitAnd
  | lshift
  | rshift
  | orOp
  | andOp
  | eq
  | notEq
  | less
  | greater
  | lessEq
  | greaterEq
deriving DecidableEq

mutual
inductive Expression where
  | base (unary : List UnaryOp) (term : Term) (follow : List Follow)
  | binaryOp (op : BinaryOp) (lhs rhs : Expression)
  /-- Augmented/assigning expression shapes; the folder rejects them all
  with the same diagnostic, matching the catch-all arm of `expr`. -/
  | assignOp (op : BinaryOp) (lhs rhs : Expression)

inductive Term where
  | null
  | new (type_ : NewTypeE) (args : Option (List Expression))
  | list (elems : List (Expression × Option Expression))
  | call (ident : String) (args : List Expression)
  | prefab (p : PrefabAst)
  | ident (s : String)
  | string (s : String)
  | resource (s : String)
  | int (i : Int)
  | float (f : Float)
  | expr (e : Expression)

inductive Follow where
  | field (name : String)
  | index (e : Expression)
  | callF (name : String) (args : List Expression)

inductive NewTypeE where
  | implicit
  | identT (s : String)
  | prefab (p : PrefabAst)

/-- A prefab literal: a type path plus insertion-ordered field overrides. -/
inductive PrefabAst where
  | mk (path : TypePath) (vars : List (String × Expression))
end

def PrefabAst.path : PrefabAst → TypePath
  | .mk p _ => p

def PrefabAst.vars : PrefabAst → List (String × Expression)
  | .mk _ v => v

/-- Modelled from the spec: `impl From<Expression> for Term` (in the absent
`ast.rs`) unwraps a `Base` expression with no unary operators and no
followers to its bare term, and boxes anything else back up as
`Term::Expr`; this is what makes a bare identifier list key visible to the
folder's warning arm. -/
def termOfExpr : Expression → Term
  | .base [] t [] => t
  | e => .expr e

/-! ## Reduced values (`Constant`) -/

inductive ConstFn where
  | icon
  | matrix
  | newlist
deriving DecidableEq

mutual
inductive Constant where
  | null (tp : Option TypePath)
  | new (type_ : NewTypeC) (args : Option (List Constant))
  | list (elems : List (Constant × Option Constant))
  | call (fn : ConstFn) (args : List Constant)
  | prefab (path : TypePath) (vars : List (String × Constant))
  | string (s : String)
  | resource (s : String)
  | int (i : Int)
  | float (f : Float)

inductive NewTypeC where
  | implicit
  | identT (s : String)
  | prefab (path : TypePath) (vars : List (String × Constant))
end

/-! Structural equality of constants, mirroring the derived `PartialEq`:
floats compare by IEEE equality (`Float.beq`), everything else is
structural. -/

def typePathEq (a b : TypePath) : Bool := a = b

def optTypePathEq : Option TypePath → Option TypePath → Bool
  | none, none => true
  | some a, some b => typePathEq a b
  | _, _ => false

mutual
def constEq : Constant → Constant → Bool
  | .null a, .null b => optTypePathEq a b
  | .new t₁ a₁, .new t₂ a₂ => newTypeCEq t₁ t₂ && optListEq a₁ a₂
  | .list l₁, .list l₂ => elemsEq l₁ l₂
  | .call f₁ a₁, .call f₂ a₂ => f₁ = f₂ && constListEq a₁ a₂
  | .prefab p₁ v₁, .prefab p₂ v₂ => typePathEq p₁ p₂ && varsEq v₁ v₂
  | .string a, .string b => a = b
  | .resource a, .resource b => a = b
  | .int a, .int b => a = b
  | .float a, .float b => a == b
  | _, _ => false

def newTypeCEq : NewTypeC → NewTypeC → Bool
  | .implicit, .implicit => true
  | .identT a, .identT b => a = b
  | .prefab p₁ v₁, .prefab p₂ v₂ => typePathEq p₁ p₂ && varsEq v₁ v₂
  | _, _ => false

def optListEq : Option (List Constant) → Option (List Constant) → Bool
  | none, none => true
  | some a, some b => constListEq a b
  | _, _ => false

def constListEq : List Constant → List Constant → Bool
  | [], [] => true
  | a :: as_, b :: bs => constEq a b && constListEq as_ bs
  | _, _ => false

def elemsEq : List (Constant × Option Constant) → List (Constant × Option Constant) → Bool
  | [], [] => true
  | (k₁, v₁) :: r₁, (k₂, v₂) :: r₂ => constEq k₁ k₂ && optConstEq v₁ v₂ && elemsEq r₁ r₂
  | _, _ => false

def optConstEq : Option Constant → Option Constant → Bool
  | none, none => true
  | some a, some b => constEq a b
  | _, _ => false

def varsEq : List (String × Constant) → List (String × Constant) → Bool
  | [], [] => true
  | (k₁, v₁) :: r₁, (k₂, v₂) :: r₂ => (k₁ = k₂ : Bool) && constEq v₁ v₂ && varsEq r₁ r₂
  | _, _ => false
end

/-! ## Errors -/

/-- `DMError::new(location, desc)`; source locations are opaque here. -/
structure DMError where
  location : Nat
  desc : String
deriving DecidableEq

/-- Outcome channel of the embedding: a returned `DMError`, a Rust panic,
or the model-only out-of-fuel marker. -/
inductive Failure where
  | err (e : DMError)
  | panicked (msg : String)
  | fuelOut
deriving DecidableEq

/-! ## Debug rendering

The diagnostic messages of `constants.rs` interpolate `{:?}` payloads.
The embedding renders those payloads shallowly (constructor names only,
no recursive descent); no claim depends on the interpolated text, only on
which diagnostic is raised and at which location. -/

def dbgConstant : Constant → String
  | .null none => "Null(None)"
  | .null (some _) => "Null(Some(..))"
  | .new _ _ => "New(..)"
  | .list _ => "List(..)"
  | .call _ _ => "Call(..)"
  | .prefab _ _ => "Prefab(..)"
  | .string s => "String(" ++ s ++ ")"
  | .resource s => "Resource(" ++ s ++ ")"
  | .int i => "Int(" ++ toString i ++ ")"
  | .float _ => "Float(..)"

def dbgBinaryOp : BinaryOp → String
  | .add => "Add"
  | .sub => "Sub"
  | .mul => "Mul"
  | .div => "Div"
  | .bitOr => "BitOr"
  | .bitAnd => "BitAnd"
  | .lshift => "LShift"
  | .rshift => "RShift"
  | .orOp => "Or"
  | .andOp => "And"
  | .eq => "Eq"
  | .notEq => "NotEq"
  | .less => "Less"
  | .greater => "Greater"
  | .lessEq => "LessEq"
  | .greaterEq => "GreaterEq"

def dbgUnaryOp : UnaryOp → String
  | .neg => "Neg"
  | .not => "Not"
  | .bitNot => "BitNot"

def dbgFollow : Follow → String
  | .field n => "Field(" ++ n ++ ")"
  | .index _ => "Index(..)"
  | .callF n _ => "Call(" ++ n ++ ", ..)"

/-! ## Unary and binary application (pure parts of the folder) -/

/-- `ConstantFolder::unary`, with the folder's location for errors. -/
def unaryK (loc : Nat) (term : Constant) (op : UnaryOp) : Except Failure Constant :=
  match op, term with
  | .neg, .int i => .ok (.int (wrap32 (-i)))
  | .bitNot, .int i => .ok (.int (-1 - i))
  | .not, .int i => .ok (.int (if i ≠ 0 then 0 else 1))
  | .neg, .float f => .ok (.float (-f))
  | op, term =>
    .error (.err ⟨loc, "non-constant unary operation: " ++ dbgUnaryOp op ++ " "
      ++ dbgConstant term⟩)

/-- The `for each in unary.into_iter().rev()` loop of `expr`; the caller
passes the already-reversed operator list. -/
def applyUnarys (loc : Nat) : Constant → List UnaryOp → Except Failure Constant
  | c, [] => .ok c
  | c, op :: rest =>
    match unaryK loc c op with
    | .ok c₁ => applyUnarys loc c₁ rest
    | .error e => .error e

/-- `ConstantFolder::binary`.  The `numeric!`/`integer!` macro cascade
expands to one dispatch on `(op, lhs, rhs)`; the patterns are mutually
disjoint, so it is written as a single match.  Integer `+ - *` wrap
(release mode); integer division by zero, or `i32::MIN / -1`, panics in
every build profile. -/
def binaryK (loc : Nat) (lhs rhs : Constant) (op : BinaryOp) : Except Failure Constant :=
  match op, lhs, rhs with
  | .add, .int a, .int b => .ok (.int (i32add a b))
  | .add, .int a, .float y => .ok (.float (Float.ofInt a + y))
  | .add, .float x, .int b => .ok (.float (x + Float.ofInt b))
  | .add, .float x, .float y => .ok (.float (x + y))
  | .sub, .int a, .int b => .ok (.int (i32sub a b))
  | .sub, .int a, .float y => .ok (.float (Float.ofInt a - y))
  | .sub, .float x, .int b => .ok (.float (x - Float.ofInt b))
  | .sub, .float x, .float y => .ok (.float (x - y))
  | .mul, .int a, .int b => .ok (.int (i32mul a b))
  | .mul, .int a, .float y => .ok (.float (Float.ofInt a * y))
  | .mul, .float x, .int b => .ok (.float (x * Float.ofInt b))
  | .mul, .float x, .float y => .ok (.float (x * y))
  | .div, .int a, .int b =>
    if b = 0 then .error (.panicked "attempt to divide by zero")
    else if a = -(2 ^ 31) ∧ b = -1 then .error (.panicked "attempt to divide with overflow")
    else .ok (.int (Int.tdiv a b))
  | .div, .int a, .float y => .ok (.float (Float.ofInt a / y))
  | .div, .float x, .int b => .ok (.float (x / Float.ofInt b))
  | .div, .float x, .float y => .ok (.float (x / y))
  | .bitOr, .int a, .int b => .ok (.int (i32bitor a b))
  | .bitAnd, .int a, .int b => .ok (.int (i32bitand a b))
  | .lshift, .int a, .int b => .ok (.int (i32shl a b))
  | .rshift, .int a, .int b => .ok (.int (i32shr a b))
  | .add, .string a, .string b => .ok (.string (a ++ b))
  | op, lhs, rhs =>
    .error (.err ⟨loc, "non-constant binary operation: " ++ dbgConstant lhs ++ " "
      ++ dbgBinaryOp op ++ " " ++ dbgConstant rhs⟩)

/-! ## List indexing on constants (`Constant::index`) -/

/-- A negative `i32` cast `as usize` on a 64-bit host wraps modulo `2^64`. -/
def usizeOfI32 (i : Int) : Nat := (i % 2 ^ 64).toNat

/-- The non-integer-key arm of `Constant::index`: scan for the first
element whose key equals the probe (derived `PartialEq`) and return its
value component, which may itself be absent. -/
def indexScan : List (Constant × Option Constant) → Constant → Option Constant
  | [], _ => none
  | (k, v) :: rest, key => if constEq key k then v else indexScan rest key

/-- `Constant::index`.  An `Int` key indexes positionally and yields the
*key* component of the element; any other key is looked up by equality and
yields the *value* component; non-lists have no index. -/
def Constant.index (c : Constant) (key : Constant) : Option Constant :=
  match c, key with
  | .list elems, .int i => (elems.get? (usizeOfI32 i)).map Prod.fst
  | .list elems, key => indexScan elems key
  | _, _ => none

/-! ## The class tree

Modelled from the spec: `objtree.rs` is not among the sources.  Section 3
describes each class as a node with a parent, an insertion-ordered map of
variable slots, and a map of declaration metadata; section 4.2 gives the
facade operations (`node_by_path`, `parent_of`, `declaration_of`,
`slot_of_mut`).  Node handles are indices into `nodes` (petgraph
`NodeIndex`), path lookup is the `types` map. -/

/-- The per-(class, name) variable slot (`VarValue` in the source). -/
structure VarValue where
  location : Nat
  expression : Option Expression
  constant : Option Constant
  being_evaluated : Bool

/-- Declaration metadata; `const_evaluable` models the
`is_const_evaluable()` accessor. -/
structure VarDeclaration where
  type_path : TypePath
  is_static : Bool
  const_evaluable : Bool

structure TypeNode where
  path : String
  parent : Option Nat
  vars : List (String × VarValue)
  decls : List (String × VarDeclaration)

structure ObjectTree where
  nodes : List TypeNode
  types : List (String × Nat)

/-- The mutable state threaded through the evaluator: the class tree, the
lines the code prints to standard output (`println!` sites), and a ghost
log of the slots whose stored expression has been submitted to the
expression folder (used to state the fold-at-most-once property; it does
not influence control flow). -/
structure St where
  tree : ObjectTree
  stdout : List String
  folds : List (Nat × String)

/-! ### Association-list and state helpers -/

def alGet {α : Type} : List (String × α) → String → Option α
  | [], _ => none
  | (k, v) :: rest, key => if k = key then some v else alGet rest key

def alUpd {α : Type} : List (String × α) → String → (α → α) → List (String × α)
  | [], _, _ => []
  | (k, v) :: rest, key, f => if k = key then (k, f v) :: rest else (k, v) :: alUpd rest key f

/-- `LinkedHashMap::insert`: replace in place if the key is present,
append otherwise. -/
def lhmInsert {α : Type} : List (String × α) → String → α → List (String × α)
  | [], key, v => [(key, v)]
  | (k, w) :: rest, key, v =>
    if k = key then (k, v) :: rest else (k, w) :: lhmInsert rest key v

def listModify {α : Type} (f : α → α) : Nat → List α → List α
  | _, [] => []
  | 0, a :: rest => f a :: rest
  | n + 1, a :: rest => a :: listModify f n rest

def getNode (t : ObjectTree) (ty : Nat) : Option TypeNode := t.nodes.get? ty

def slotAt (st : St) (ty : Nat) (name : String) : Option VarValue :=
  (getNode st.tree ty).bind fun n => alGet n.vars name

def St.updVar (st : St) (ty : Nat) (name : String) (f : VarValue → VarValue) : St :=
  { st with tree := { st.tree with
      nodes := listModify (fun n => { n with vars := alUpd n.vars name f }) ty st.tree.nodes } }

/-- `var.value.being_evaluated = true` just before folding, plus the ghost
record that this slot's expression is now being folded. -/
def markSlot (st : St) (ty : Nat) (name : String) : St :=
  let st₁ := st.updVar ty name fun v => { v with being_evaluated := true }
  { st₁ with folds := st₁.folds ++ [(ty, name)] }

/-- The store on the no-expression path (`var.value.constant = Some(c)`). -/
def setConstant (st : St) (ty : Nat) (name : String) (c : Constant) : St :=
  st.updVar ty name fun v => { v with constant := some c }

/-- The store after a successful fold: `constant = Some(value)` and
`being_evaluated = false`. -/
def storeConstant (st : St) (ty : Nat) (name : String) (c : Constant) : St :=
  st.updVar ty name fun v => { v with constant := some c, being_evaluated := false }

def pushStdout (st : St) (line : String) : St :=
  { st with stdout := st.stdout ++ [line] }

/-! ### Declaration lookup -/

def getDeclarationAux (t : ObjectTree) : Nat → Nat → String → Option VarDeclaration
  | 0, _, _ => none
  | fuel + 1, ty, name =>
    match getNode t ty with
    | none => none
    | some node =>
      match alGet node.decls name with
      | some d => some d
      | none =>
        match node.parent with
        | none => none
        | some p => getDeclarationAux t fuel p name

/-- Modelled from the spec: `Type::get_declaration` lives in the absent
`objtree.rs`; section 4.2 says it "walks the inheritance chain
transparently".  The walk is bounded by the node count, which is exact for
the acyclic trees the spec describes (section 3). -/
def getDeclaration (t : ObjectTree) (ty : Nat) (name : String) : Option VarDeclaration :=
  getDeclarationAux t (t.nodes.length + 1) ty name

/-! ## The evaluator

`ConstLookup` is the resolver's result; `FTask` enumerates the mutually
recursive pieces of `constant_ident_lookup` / `ConstantFolder`; `runF`
executes one task, spending one unit of fuel on every internal call. -/

inductive ConstLookup where
  | found (tp : TypePath) (c : Constant)
  | next (idx : Option Nat)

inductive FTask where
  /-- `constant_ident_lookup(tree, ty, ident, must_be_static)`. -/
  | lookup (ty : Nat) (ident : String) (mbs : Bool)
  /-- `ConstantFolder::expr`; `loc`/`ty` are the folder's fields. -/
  | exprT (loc ty : Nat) (e : Expression) (hint : Option TypePath)
  /-- `ConstantFolder::expr_vec`. -/
  | exprList (loc ty : Nat) (es : List Expression)
  /-- `ConstantFolder::term`. -/
  | termT (loc ty : Nat) (t : Term) (hint : Option TypePath)
  /-- The `for each in follow` loop of `expr`. -/
  | follows (loc ty : Nat) (c : Constant) (fs : List Follow)
  /-- `ConstantFolder::follow`. -/
  | followOne (loc ty : Nat) (c : Constant) (f : Follow)
  /-- The element loop of the `Term::List` arm. -/
  | listElems (loc ty : Nat) (es : List (Expression × Option Expression))
      (hint : Option TypePath)
  /-- The argument loop of the `rgb` arm, accumulating the result string. -/
  | rgbArgs (loc ty : Nat) (es : List Expression) (acc : String)
  /-- `ConstantFolder::prefab`. -/
  | prefabT (loc ty : Nat) (p : PrefabAst)
  /-- The override loop of `prefab`, accumulating the reduced map. -/
  | prefabVars (loc ty : Nat) (vs : List (String × Expression))
      (acc : List (String × Constant))
  /-- The argument mapping of the `Term::New` arm. -/
  | newArgs (loc ty : Nat) (args : Option (List Expression))
  /-- `ConstantFolder::recursive_lookup`'s `while let` loop. -/
  | walk (loc : Nat) (idx : Option Nat) (ident : String) (mbs : Bool)

@[reducible] def FTask.Out : FTask → Type
  | .lookup .. => ConstLookup
  | .exprT .. => Constant
  | .exprList .. => List Constant
  | .termT .. => Constant
  | .follows .. => Constant
  | .followOne .. => Constant
  | .listElems .. => List (Constant × Option Constant)
  | .rgbArgs .. => String
  | .prefabT .. => TypePath × List (String × Constant)
  | .prefabVars .. => List (String × Constant)
  | .newArgs .. => Option (List Constant)
  | .walk .. => Constant

/-- Sequencing in the embedded state-and-error monad: mutated state is
kept even when an error propagates (Rust `?` does not roll back). -/
def rbind {α β : Type} (x : St × Except Failure α) (f : St → α → St × Except Failure β) :
    St × Except Failure β :=
  match x with
  | (st, .ok v) => f st v
  | (st, .error e) => (st, .error e)

/-- One iteration of `recursive_lookup`'s `while let` loop, applied to the
result of `constant_ident_lookup`: a `Found` value ends the walk, a
`Continue` moves to the next class (`next`), and a returned `DMError` is
re-raised at the folder's location (`.map_err(|e| DMError::new(self.location,
e.desc))`); panics unwind unchanged. -/
def walkCont (loc : Nat) (next : Option Nat → St → St × Except Failure Constant)
    (x : St × Except Failure ConstLookup) : St × Except Failure Constant :=
  match x with
  | (st₁, .ok (.found _ v)) => (st₁, .ok v)
  | (st₁, .ok (.next i)) => next i st₁
  | (st₁, .error (.err e)) => (st₁, .error (.err ⟨loc, e.desc⟩))
  | (st₁, .error other) => (st₁, .error other)

def runF : Nat → (t : FTask) → St → St × Except Failure t.Out
  | 0, _, st => (st, .error .fuelOut)
  | fuel + 1, .lookup ty ident mbs, st =>
    -- `tree.graph.node_weight(ty).unwrap()` (lines 36 and 41)
    match getNode st.tree ty with
    | none => (st, .error (.panicked "node_weight unwrap"))
    | some node =>
      match getDeclaration st.tree ty ident with
      | none => (st, .ok (.next none))  -- definitely does not exist
      | some decl =>
        match alGet node.vars ident with
        | none => (st, .ok (.next node.parent))
        | some v =>
          match v.constant with
          | some c => (st, .ok (.found decl.type_path c))
          | none =>
            match v.expression with
            | some e =>
              if v.being_evaluated then
                (st, .error (.err ⟨v.location, "recursive constant reference: " ++ ident⟩))
              else if !decl.const_evaluable then
                (st, .error (.err ⟨v.location, "non-const variable: " ++ ident⟩))
              else if !decl.is_static && mbs then
                (st, .error (.err ⟨v.location, "non-static variable: " ++ ident⟩))
              else
                rbind (runF fuel
                    (.exprT v.location ty e
                      (if decl.type_path.isEmpty then none else some decl.type_path))
                    (markSlot st ty ident)) fun st₂ value =>
                  (storeConstant st₂ ty ident value, .ok (.found decl.type_path value))
            | none =>
              (setConstant st ty ident (.null (some decl.type_path)),
               .ok (.found decl.type_path (.null (some decl.type_path))))
  | fuel + 1, .exprT loc ty e hint, st =>
    match e with
    | .base unary term follow =>
      let baseHint := if follow.isEmpty && unary.isEmpty then hint else none
      rbind (runF fuel (.termT loc ty term baseHint) st) fun st₁ t =>
      rbind (runF fuel (.follows loc ty t follow) st₁) fun st₂ t₂ =>
        (st₂, applyUnarys loc t₂ unary.reverse)
    | .binaryOp op lhs rhs =>
      rbind (runF fuel (.exprT loc ty lhs none) st) fun st₁ l =>
      rbind (runF fuel (.exprT loc ty rhs none) st₁) fun st₂ r =>
        (st₂, binaryK loc l r op)
    | .assignOp .. => (st, .error (.err ⟨loc, "non-constant augmented assignment"⟩))
  | fuel + 1, .exprList loc ty es, st =>
    match es with
    | [] => (st, .ok [])
    | e :: rest =>
      rbind (runF fuel (.exprT loc ty e none) st) fun st₁ c =>
      rbind (runF fuel (.exprList loc ty rest) st₁) fun st₂ cs =>
        (st₂, .ok (c :: cs))
  | fuel + 1, .termT loc ty t hint, st =>
    match t with
    | .null => (st, .ok (.null hint))
    | .new type_ args =>
      match type_ with
      | .prefab p =>
        rbind (runF fuel (.prefabT loc ty p) st) fun st₁ pc =>
        rbind (runF fuel (.newArgs loc ty args) st₁) fun st₂ argsc =>
          (st₂, .ok (.new (.prefab pc.1 pc.2) argsc))
      | .implicit =>
        rbind (runF fuel (.newArgs loc ty args) st) fun st₁ argsc =>
          (st₁, .ok (.new .implicit argsc))
      | .identT _ => (st, .error (.err ⟨loc, "non-constant new expression"⟩))
    | .list elems =>
      let elementType : Option TypePath :=
        match hint with
        | some (p₀ :: rest) => if p₀.2 = "list" then some rest else none
        | _ => none
      rbind (runF fuel (.listElems loc ty elems elementType) st) fun st₁ out =>
        (st₁, .ok (.list out))
    | .call ident args =>
      if ident = "matrix" then
        rbind (runF fuel (.exprList loc ty args) st) fun st₁ cs =>
          (st₁, .ok (.call .matrix cs))
      else if ident = "newlist" then
        rbind (runF fuel (.exprList loc ty args) st) fun st₁ cs =>
          (st₁, .ok (.call .newlist cs))
      else if ident = "icon" then
        rbind (runF fuel (.exprList loc ty args) st) fun st₁ cs =>
          (st₁, .ok (.call .icon cs))
      else if ident = "rgb" then
        if args.length ≠ 3 ∧ args.length ≠ 4 then
          (st, .error (.err ⟨loc, "malformed rgb() call"⟩))
        else
          rbind (runF fuel (.rgbArgs loc ty args "#") st) fun st₁ s =>
            (st₁, .ok (.string s))
      else (st, .error (.err ⟨loc, "non-constant function call: " ++ ident⟩))
    | .prefab p =>
      rbind (runF fuel (.prefabT loc ty p) st) fun st₁ pc =>
        (st₁, .ok (.prefab pc.1 pc.2))
    | .ident s =>
      if s = "null" then (st, .ok (.null hint))
      else runF fuel (.walk loc (some ty) s false) st
    | .string v => (st, .ok (.string v))
    | .resource v => (st, .ok (.resource v))
    | .int v => (st, .ok (.int v))
    | .float v => (st, .ok (.float v))
    | .expr e => runF fuel (.exprT loc ty e hint) st
  | fuel + 1, .follows loc ty c fs, st =>
    match fs with
    | [] => (st, .ok c)
    | f :: rest =>
      rbind (runF fuel (.followOne loc ty c f) st) fun st₁ c₁ =>
        runF fuel (.follows loc ty c₁ rest) st₁
  | fuel + 1, .followOne loc _ty c f, st =>
    match c, f with
    | .null (some typeHint), .field fieldName =>
      let fullPath := typeHint.foldl (fun acc seg => acc ++ "/" ++ seg.2) ""
      match alGet st.tree.types fullPath with
      | some idx => runF fuel (.walk loc (some idx) fieldName true) st
      | none => (st, .error (.err ⟨loc, "unknown typepath " ++ fullPath⟩))
    | term, follow =>
      (st, .error (.err ⟨loc, "non-constant expression followers: " ++ dbgConstant term
        ++ "." ++ dbgFollow follow⟩))
  | fuel + 1, .listElems loc ty es hint, st =>
    match es with
    | [] => (st, .ok [])
    | (key, some val) :: rest =>
      match termOfExpr key with
      | .ident s =>
        let st₀ := pushStdout st ("WARNING: ident used as list key: " ++ s)
        rbind (runF fuel (.exprT loc ty val hint) st₀) fun st₁ valc =>
        rbind (runF fuel (.listElems loc ty rest hint) st₁) fun st₂ out =>
          (st₂, .ok ((.string s, some valc) :: out))
      | other =>
        rbind (runF fuel (.termT loc ty other hint) st) fun st₁ keyc =>
        rbind (runF fuel (.exprT loc ty val hint) st₁) fun st₂ valc =>
        rbind (runF fuel (.listElems loc ty rest hint) st₂) fun st₃ out =>
          (st₃, .ok ((keyc, some valc) :: out))
    | (key, none) :: rest =>
      rbind (runF fuel (.exprT loc ty key hint) st) fun st₁ keyc =>
      rbind (runF fuel (.listElems loc ty rest hint) st₁) fun st₂ out =>
        (st₂, .ok ((keyc, none) :: out))
  | fuel + 1, .rgbArgs loc ty es acc, st =>
    match es with
    | [] => (st, .ok acc)
    | e :: rest =>
      rbind (runF fuel (.exprT loc ty e none) st) fun st₁ c =>
        match c with
        | .int i => runF fuel (.rgbArgs loc ty rest (acc ++ hex2 (clampByte i))) st₁
        | _ => (st₁, .error (.err ⟨loc, "malformed rgb() call"⟩))
  | fuel + 1, .prefabT loc ty p, st =>
    rbind (runF fuel (.prefabVars loc ty p.vars []) st) fun st₁ vars =>
      (st₁, .ok (p.path, vars))
  | fuel + 1, .prefabVars loc ty vs acc, st =>
    match vs with
    | [] => (st, .ok acc)
    | (k, v) :: rest =>
      rbind (runF fuel (.exprT loc ty v none) st) fun st₁ c =>
        runF fuel (.prefabVars loc ty rest (lhmInsert acc k c)) st₁
  | fuel + 1, .newArgs loc ty args, st =>
    match args with
    | none => (st, .ok none)
    | some es =>
      rbind (runF fuel (.exprList loc ty es) st) fun st₁ cs =>
        (st₁, .ok (some cs))
  | fuel + 1, .walk loc idx ident mbs, st =>
    match idx with
    | none => (st, .error (.err ⟨loc, "unknown variable: " ++ ident⟩))
    | some ty =>
      walkCont loc (fun i st₁ => runF fuel (.walk loc i ident mbs) st₁)
        (runF fuel (.lookup ty ident mbs)
          (pushStdout st ("searching type #" ++ toString ty)))

/-- `constant_ident_lookup` as a named entry point. -/
def constant_ident_lookup (fuel : Nat) (st : St) (ty : Nat) (ident : String)
    (must_be_static : Bool) : St × Except Failure ConstLookup :=
  runF fuel (.lookup ty ident must_be_static) st

/-- `ConstantFolder::recursive_lookup` as a named entry point. -/
def recursive_lookup (fuel : Nat) (st : St) (loc ty : Nat) (ident : String)
    (must_be_static : Bool) : St × Except Failure Constant :=
  runF fuel (.walk loc (some ty) ident must_be_static) st

/-! ### The driver (`evaluate_all`) -/

/-- The inner loop of `evaluate_all` over the snapshotted variable names of
one class.  A variable whose declaration exists but is not
const-evaluable is skipped; a `Continue` result trips the driver's
`panic!`; any error propagates out through `?`. -/
def evalKeys (fuel ty : Nat) : St → List String → St × Except Failure Unit
  | st, [] => (st, .ok ())
  | st, key :: rest =>
    let skip : Bool :=
      match getDeclaration st.tree ty key with
      | some d => !d.const_evaluable
      | none => false
    if skip then evalKeys fuel ty st rest
    else
      match constant_ident_lookup fuel st ty key false with
      | (st₁, .ok (.found _ _)) => evalKeys fuel ty st₁ rest
      | (st₁, .ok (.next _)) =>
        match getNode st₁.tree ty with
        | some node => (st₁, .error (.panicked (key ++ " " ++ node.path)))
        | none => (st₁, .error (.panicked "node_weight unwrap"))
      | (st₁, .error e) => (st₁, .error e)

/-- The outer loop of `evaluate_all` over node indices. -/
def evalNodes (fuel : Nat) : St → List Nat → St × Except Failure Unit
  | st, [] => (st, .ok ())
  | st, ty :: rest =>
    match getNode st.tree ty with
    | none => (st, .error (.panicked "node_weight unwrap"))
    | some node =>
      match evalKeys fuel ty st (node.vars.map Prod.fst) with
      | (st₁, .ok ()) => evalNodes fuel st₁ rest
      | (st₁, .error e) => (st₁, .error e)

/-- `evaluate_all(tree)`. -/
def evaluate_all (fuel : Nat) (st : St) : St × Except Failure Unit :=
  evalNodes fuel st (List.range st.tree.nodes.length)

/-! ## Shape predicates used by the statements -/

def Constant.isInt : Constant → Bool
  | .int _ => true
  | _ => false

def Constant.isFloat : Constant → Bool
  | .float _ => true
  | _ => false

def Constant.isString : Constant → Bool
  | .string _ => true
  | _ => false

/-- `Add/Sub/Mul/Div`, the operators handled by the `numeric!` macro. -/
def numericOpB : BinaryOp → Bool
  | .add | .sub | .mul | .div => true
  | _ => false

/-- `BitOr/BitAnd/LShift/RShift`, the operators handled by `integer!`. -/
def bitOpB : BinaryOp → Bool
  | .bitOr | .bitAnd | .lshift | .rshift => true
  | _ => false

/-- The (lhs, rhs, op) combinations that have a dedicated arm in
`ConstantFolder::binary`; everything else reaches the catch-all error. -/
def foldableB (l r : Constant) (op : BinaryOp) : Bool :=
  (numericOpB op && (l.isInt || l.isFloat) && (r.isInt || r.isFloat)) ||
  ((match op with | .add => true | _ => false) && l.isString && r.isString) ||
  (bitOpB op && l.isInt && r.isInt)

/-! ## Concrete fixtures used by witnesses and counterexamples -/

/-- An integer literal as a full expression. -/
def litE (i : Int) : Expression := .base [] (.int i) []

/-- A bare identifier as a full expression. -/
def identE (s : String) : Expression := .base [] (.ident s) []

/-- The empty state (no classes). -/
def st0 : St := ⟨⟨[], []⟩, [], []⟩

/-- A const-evaluable, non-static declaration without a type hint. -/
def declC : VarDeclaration := ⟨[], false, true⟩

/-- One class with `bad` (an augmented assignment, which cannot fold,
declared first) and `good` (the literal 5, declared second). -/
def stAbort : St :=
  ⟨⟨[⟨"/x", none,
      [("bad", ⟨1, some (.assignOp .add (litE 1) (litE 2)), none, false⟩),
       ("good", ⟨2, some (litE 5), none, false⟩)],
      [("bad", declC), ("good", declC)]⟩], [("/x", 0)]⟩, [], []⟩

/-- One class with the two-variable reference cycle `a = b; b = a`. -/
def stCycle : St :=
  ⟨⟨[⟨"/x", none,
      [("a", ⟨1, some (identE "b"), none, false⟩),
       ("b", ⟨2, some (identE "a"), none, false⟩)],
      [("a", declC), ("b", declC)]⟩], [("/x", 0)]⟩, [], []⟩

/-- A state whose single slot is mid-evaluation (`being_evaluated` set),
as the resolver leaves it while the slot's own fold is on the stack. -/
def stMid : St :=
  ⟨⟨[⟨"/x", none,
      [("a", ⟨1, some (identE "a"), none, true⟩)],
      [("a", declC)]⟩], [("/x", 0)]⟩, [], []⟩

/-- A state whose single slot already holds a reduced constant. -/
def stDone : St :=
  ⟨⟨[⟨"/x", none,
      [("a", ⟨1, some (litE 7), some (.int 7), false⟩)],
      [("a", declC)]⟩], [("/x", 0)]⟩, [], []⟩

/-! ## Relations and helpers for statements about runs -/

/-- `RgbSeq fuel st loc ty es cs st'` says that folding the expressions
`es` one after another (each with no type hint, the way both `expr_vec`
and the `rgb` loop do) succeeds, produces the constants `cs`, and carries
the state from `st` to `st'`, with the fuel pattern of the loop tasks. -/
inductive RgbSeq : Nat → St → Nat → Nat → List Expression → List Constant → St → Prop where
  | nil (fuel : Nat) (st : St) (loc ty : Nat) : RgbSeq (fuel + 1) st loc ty [] [] st
  | cons {fuel : Nat} {st st₁ st₂ : St} {loc ty : Nat} {e : Expression}
      {es : List Expression} {c : Constant} {cs : List Constant} :
      runF fuel (.exprT loc ty e none) st = (st₁, .ok c) →
      RgbSeq fuel st₁ loc ty es cs st₂ →
      RgbSeq (fuel + 1) st loc ty (e :: es) (c :: cs) st₂

/-- The hexadecimal rendering the `rgb` loop appends for a run of
already-reduced arguments. -/
def hexConcat : List Constant → String
  | [] => ""
  | .int i :: rest => hex2 (clampByte i) ++ hexConcat rest
  | _ :: rest => hexConcat rest

/-- Concatenation of a list of strings, used to state the rgb result. -/
def strConcat : List String → String
  | [] => ""
  | a :: rest => a ++ strConcat rest

/-- The absolute path the field-through-null follow builds: every segment
contributes a slash and its name; the segment's own operator is ignored. -/
def joinSegs : TypePath → String
  | [] => ""
  | seg :: rest => "/" ++ seg.2 ++ joinSegs rest

/-! ## State evolution

`Ev st st'` captures how any call of the evaluator may change the state:
the tree's shape, paths, parents, declarations and every slot's location
and stored expression are untouched; a stored constant is never cleared or
replaced; a slot that is `being_evaluated` stays so (and, when it has an
expression, keeps its `constant` field) — only the call that set the flag
writes the slot, and that write is part of the same outer call; stdout and
the ghost fold log only grow; and the fold log never contains a slot that
is still openable. -/

def EvSlot (v v' : VarValue) : Prop :=
  v'.location = v.location ∧ v'.expression = v.expression ∧
  (∀ c, v.constant = some c → v'.constant = some c) ∧
  (v.being_evaluated = true → v'.being_evaluated = true ∧
    (v.expression.isSome → v'.constant = v.constant))

def EvPair (p q : String × VarValue) : Prop := q.1 = p.1 ∧ EvSlot p.2 q.2

def EvNode (a b : TypeNode) : Prop :=
  b.path = a.path ∧ b.parent = a.parent ∧ b.decls = a.decls ∧
  List.Forall₂ EvPair a.vars b.vars

def EvTree (t t' : ObjectTree) : Prop :=
  t'.types = t.types ∧ List.Forall₂ EvNode t.nodes t'.nodes

/-- A slot that the resolver would still submit to the folder: no constant
yet, not marked, and an expression present. -/
def openableV (v : VarValue) : Prop :=
  v.constant = none ∧ v.being_evaluated = false ∧ v.expression.isSome

def openableAt (st : St) (p : Nat × String) : Prop :=
  ∃ v, slotAt st p.1 p.2 = some v ∧ openableV v

/-- The ghost fold log lists distinct slots, none of which is still
openable: once a slot's expression has entered the folder, the slot is
marked or finished forever, so it can never enter the folder again. -/
def FoldsInv (st : St) : Prop :=
  st.folds.Nodup ∧ ∀ p ∈ st.folds, ¬ openableAt st p

def Ev (st st' : St) : Prop :=
  EvTree st.tree st'.tree ∧ (∃ t, st'.stdout = st.stdout ++ t) ∧
  (∃ t, st'.folds = st.folds ++ t) ∧ (FoldsInv st → FoldsInv st')

/-! ## Fuel bounds

`runF` spends one unit of fuel per internal call, so fuel bounds the call
*depth*.  The weights below overapproximate the depth contributed by a
syntactic construct; identifier and field nodes carry the weight `w`
(instantiated with twice the node count plus slack) because resolving them
walks the parent chain.  `phi` is the potential of the still-openable
slots: opening a slot pays for folding its stored expression, and a slot
can be opened at most once along any call stack. -/

mutual
def esize (w : Nat) : Expression → Nat
  | .base u t fs => 1 + u.length + tsize w t + fsizes w fs
  | .binaryOp _ l r => 1 + esize w l + esize w r
  | .assignOp _ _ _ => 1

def tsize (w : Nat) : Term → Nat
  | .null => 1
  | .new t args => 1 + ntsize w t + nasize w args
  | .list elems => 1 + elsize w elems
  | .call _ args => 1 + lsize w args + rsize w args
  | .prefab p => 1 + psize w p
  | .ident _ => 1 + w
  | .string _ => 1
  | .resource _ => 1
  | .int _ => 1
  | .float _ => 1
  | .expr e => 1 + esize w e

def ntsize (w : Nat) : NewTypeE → Nat
  | .implicit => 1
  | .identT _ => 1
  | .prefab p => 1 + psize w p

def psize (w : Nat) : PrefabAst → Nat
  | .mk _ vars => 1 + pvsize w vars

def fsize (w : Nat) : Follow → Nat
  | .field _ => 1 + w
  | .index _ => 1
  | .callF _ _ => 1

def fsizes (w : Nat) : List Follow → Nat
  | [] => 1
  | f :: rest => 1 + fsize w f + fsizes w rest

def lsize (w : Nat) : List Expression → Nat
  | [] => 1
  | e :: rest => 1 + esize w e + lsize w rest

def elsize (w : Nat) : List (Expression × Option Expression) → Nat
  | [] => 1
  | (k, some v) :: rest => 3 + esize w k + esize w v + elsize w rest
  | (k, none) :: rest => 1 + esize w k + elsize w rest

def rsize (w : Nat) : List Expression → Nat
  | [] => 1
  | e :: rest => 1 + esize w e + rsize w rest

def pvsize (w : Nat) : List (String × Expression) → Nat
  | [] => 1
  | (_, v) :: rest => 1 + esize w v + pvsize w rest

def nasize (w : Nat) : Option (List Expression) → Nat
  | none => 1
  | some es => 1 + lsize w es
end

/-- The depth an openable slot can add when its expression is folded. -/
def slotContribution (w : Nat) (v : VarValue) : Nat :=
  match v.expression, v.constant, v.being_evaluated with
  | some e, none, false => esize w e + 3
  | _, _, _ => 0

def nodePhi (w : Nat) (n : TypeNode) : Nat :=
  (n.vars.map fun p => slotContribution w p.2).sum

def treePhi (w : Nat) (t : ObjectTree) : Nat := (t.nodes.map (nodePhi w)).sum

/-- The per-identifier weight: a parent-chain walk visits at most
`nodes.length` classes, each costing two frames. -/
def wOf (st : St) : Nat := 2 * st.tree.nodes.length + 6

def phi (st : St) : Nat := treePhi (wOf st) st.tree

def taskWeight (st : St) : FTask → Nat
  | .lookup .. => 3
  | .exprT _ _ e _ => esize (wOf st) e
  | .exprList _ _ es => lsize (wOf st) es
  | .termT _ _ t _ => tsize (wOf st) t
  | .follows _ _ _ fs => fsizes (wOf st) fs
  | .followOne _ _ _ f => fsize (wOf st) f
  | .listElems _ _ es _ => elsize (wOf st) es
  | .rgbArgs _ _ es _ => rsize (wOf st) es
  | .prefabT _ _ p => psize (wOf st) p
  | .prefabVars _ _ vs _ => pvsize (wOf st) vs
  | .newArgs _ _ args => nasize (wOf st) args
  | .walk _ idx _ _ =>
    match idx with
    | none => 1
    | some i => 2 * min i st.tree.nodes.length + 4

/-- Fuel sufficient for a task in a state. -/
def FBound (st : St) (t : FTask) : Nat := phi st + taskWeight st t

/-- The class graph is a forest whose parent handles decrease: parents are
registered before their children, which is how the object tree is built
(and what the spec's "directed acyclic graph" requires). -/
def WFparents (t : ObjectTree) : Prop :=
  ∀ i n p, t.nodes.get? i = some n → n.parent = some p → p < i

/-! # Theorems -/

/-! ## Arithmetic facts about the i32 model -/

theorem wrap32_spec (x : Int) :
    -(2 ^ 31) ≤ wrap32 x ∧ wrap32 x < 2 ^ 31 ∧ (x - wrap32 x) % 2 ^ 32 = 0 := by
  unfold wrap32
  omega

/-! ## C7: wrapped integer arithmetic -/

/-- C7: for Int operands and `Add`/`Sub`/`Mul`, `binary` returns the
two's-complement 32-bit wrap of the exact result — the unique
representative of the exact sum/difference/product modulo `2^32` lying in
`[-2^31, 2^31)` — with no error and no diagnostic; in particular
`Add(Int(2147483647), Int(1))` yields `Int(-2147483648)`. -/
theorem claim_C7 (loc : Nat) (a b : Int) :
    (∃ r, binaryK loc (.int a) (.int b) .add = .ok (.int r) ∧
      -(2 ^ 31) ≤ r ∧ r < 2 ^ 31 ∧ (a + b - r) % 2 ^ 32 = 0) ∧
    (∃ r, binaryK loc (.int a) (.int b) .sub = .ok (.int r) ∧
      -(2 ^ 31) ≤ r ∧ r < 2 ^ 31 ∧ (a - b - r) % 2 ^ 32 = 0) ∧
    (∃ r, binaryK loc (.int a) (.int b) .mul = .ok (.int r) ∧
      -(2 ^ 31) ≤ r ∧ r < 2 ^ 31 ∧ (a * b - r) % 2 ^ 32 = 0) ∧
    binaryK loc (.int 2147483647) (.int 1) .add = .ok (.int (-2147483648)) := by
  refine ⟨⟨i32add a b, rfl, ?_⟩, ⟨i32sub a b, rfl, ?_⟩, ⟨i32mul a b, rfl, ?_⟩, ?_⟩
  · exact wrap32_spec (a + b)
  · exact wrap32_spec (a - b)
  · exact wrap32_spec (a * b)
  · show Except.ok (Constant.int (i32add 2147483647 1)) = _
    norm_num [i32add, wrap32]

/-! ## C6: the typing of binary operations -/

/-- Any (lhs, rhs, op) combination without a dedicated arm in
`ConstantFolder::binary` reaches the catch-all diagnostic. -/
theorem binaryK_not_foldable (loc : Nat) (l r : Constant) (op : BinaryOp)
    (h : foldableB l r op = false) :
    binaryK loc l r op = .error (.err ⟨loc, "non-constant binary operation: "
      ++ dbgConstant l ++ " " ++ dbgBinaryOp op ++ " " ++ dbgConstant r⟩) := by
  cases op <;> cases l <;> cases r <;>
    first
      | rfl
      | (exfalso
         simp [foldableB, numericOpB, bitOpB, Constant.isInt, Constant.isFloat,
           Constant.isString] at h)

/-- C6 (amended): `Add/Sub/Mul` on two Ints yield an Int, and `Div` on two
Ints yields an Int provided the divisor is nonzero and the division does
not overflow — integer division by zero (or `i32::MIN / -1`) is a fatal
panic, not a foldable result; any Float operand under a numeric operator
yields a Float; `Add` on two Strings concatenates; the bit operators
succeed exactly on two Ints; every combination without a dedicated arm
fails with the non-constant-binary-operation error. -/
theorem claim_C6 (loc : Nat) :
    (∀ (a b : Int) (op : BinaryOp), (op = .add ∨ op = .sub ∨ op = .mul) →
      ∃ k, binaryK loc (.int a) (.int b) op = .ok (.int k)) ∧
    (∀ a b : Int, b ≠ 0 → ¬(a = -(2 ^ 31) ∧ b = -1) →
      ∃ k, binaryK loc (.int a) (.int b) .div = .ok (.int k)) ∧
    (∀ a : Int, binaryK loc (.int a) (.int 0) .div
      = .error (.panicked "attempt to divide by zero")) ∧
    (∀ (a b : Int) (x : Float) (op : BinaryOp), numericOpB op = true →
      (∃ z, binaryK loc (.int a) (.float x) op = .ok (.float z)) ∧
      (∃ z, binaryK loc (.float x) (.int b) op = .ok (.float z)) ∧
      (∀ y, ∃ z, binaryK loc (.float x) (.float y) op = .ok (.float z))) ∧
    (∀ s t, binaryK loc (.string s) (.string t) .add = .ok (.string (s ++ t))) ∧
    (∀ (a b : Int) (op : BinaryOp), bitOpB op = true →
      ∃ k, binaryK loc (.int a) (.int b) op = .ok (.int k)) ∧
    (∀ (l r : Constant) (op : BinaryOp) (c : Constant), bitOpB op = true →
      binaryK loc l r op = .ok c → l.isInt = true ∧ r.isInt = true) ∧
    (∀ (l r : Constant) (op : BinaryOp), foldableB l r op = false →
      binaryK loc l r op = .error (.err ⟨loc, "non-constant binary operation: "
        ++ dbgConstant l ++ " " ++ dbgBinaryOp op ++ " " ++ dbgConstant r⟩)) := by
  refine ⟨?_, ?_, ?_, ?_, ?_, ?_, ?_, ?_⟩
  · rintro a b op (rfl | rfl | rfl) <;> exact ⟨_, rfl⟩
  · intro a b hb hover
    refine ⟨Int.tdiv a b, ?_⟩
    show (if b = 0 then _ else if a = -(2 ^ 31) ∧ b = -1 then _ else _) = _
    rw [if_neg hb, if_neg hover]
  · intro a
    rfl
  · intro a b x op hop
    cases op <;> simp [numericOpB] at hop <;>
      exact ⟨⟨_, rfl⟩, ⟨_, rfl⟩, fun y => ⟨_, rfl⟩⟩
  · intro s t
    rfl
  · intro a b op hop
    cases op <;> simp [bitOpB] at hop <;> exact ⟨_, rfl⟩
  · intro l r op c hop hok
    by_cases hl : l.isInt = true
    · by_cases hr : r.isInt = true
      · exact ⟨hl, hr⟩
      · exfalso
        rw [binaryK_not_foldable loc l r op ?_] at hok
        · exact Except.noConfusion hok
        · cases op <;> simp [bitOpB] at hop <;>
            simp [foldableB, numericOpB, bitOpB, Bool.eq_false_iff.2 hr]
    · exfalso
      rw [binaryK_not_foldable loc l r op ?_] at hok
      · exact Except.noConfusion hok
      · cases op <;> simp [bitOpB] at hop <;>
          simp [foldableB, numericOpB, bitOpB, Bool.eq_false_iff.2 hl]
  · exact fun l r op h => binaryK_not_foldable loc l r op h

/-- C6 counterexample to the claim as stated: `Div` on the Int pair
`(1, 0)` does not produce an Int — the code panics with a division by
zero (spec section 4.4 itself notes that integer division by zero is a
fatal fault, but the claim's blanket "both Int implies Int result" does
not carve it out). -/
theorem claim_C6_counterexample :
    binaryK 0 (.int 1) (.int 0) .div = .error (.panicked "attempt to divide by zero") ∧
    ∀ k, binaryK 0 (.int 1) (.int 0) .div ≠ .ok (.int k) := by
  refine ⟨rfl, fun k h => ?_⟩
  rw [show binaryK 0 (.int 1) (.int 0) .div
        = .error (.panicked "attempt to divide by zero") from rfl] at h
  exact Except.noConfusion h

/-- Witness for C6: the amended theorem applied at concrete operands. -/
theorem claim_C6_witness :
    (∃ k, binaryK 0 (.int 3) (.int 4) .add = .ok (.int k)) ∧
    (∃ k, binaryK 0 (.int 7) (.int 2) .div = .ok (.int k)) ∧
    (∃ z, binaryK 0 (.int 1) (.float 2.5) .mul = .ok (.float z)) ∧
    binaryK 0 (.string "a") (.string "b") .add = .ok (.string ("a" ++ "b")) ∧
    (∃ k, binaryK 0 (.int 6) (.int 3) .bitAnd = .ok (.int k)) ∧
    binaryK 0 (.string "a") (.int 1) .orOp = .error (.err ⟨0, "non-constant binary operation: "
      ++ dbgConstant (.string "a") ++ " " ++ dbgBinaryOp .orOp ++ " " ++ dbgConstant (.int 1)⟩) :=
  ⟨(claim_C6 0).1 3 4 .add (Or.inl rfl),
   (claim_C6 0).2.1 7 2 (by decide) (by decide),
   ((claim_C6 0).2.2.2.1 1 1 2.5 .mul rfl).1,
   (claim_C6 0).2.2.2.2.1 "a" "b",
   (claim_C6 0).2.2.2.2.2.1 6 3 .bitAnd rfl,
   (claim_C6 0).2.2.2.2.2.2.2 (.string "a") (.int 1) .orOp rfl⟩

/-! ## C10: `Constant::index` -/

theorem indexScan_eq_find (key : Constant) :
    ∀ elems : List (Constant × Option Constant),
      indexScan elems key = (elems.find? fun p => constEq key p.1).bind Prod.snd := by
  intro elems
  induction elems with
  | nil => rfl
  | cons hd tl ih =>
    obtain ⟨k, v⟩ := hd
    by_cases h : constEq key k = true
    · simp [indexScan, List.find?, h]
    · simp only [indexScan, List.find?, h]
      rw [if_neg (by simp [h])]
      simpa [Bool.not_eq_true] using ih

/-- C10: on a `List` constant, an `Int` key indexes positionally and
returns the *key* component of the element; any out-of-range index —
including every negative one, whose cast to `usize` wraps far past any
real vector length — gives `none`; a non-`Int` key returns the value
component of the first element with an equal key; a non-`List` receiver
always gives `none`. -/
theorem claim_C10 :
    (∀ (elems : List (Constant × Option Constant)) (i : Int),
      -(2 ^ 31) ≤ i → i < 2 ^ 31 → elems.length < 2 ^ 63 →
      (∀ p, 0 ≤ i → elems.get? i.toNat = some p →
        Constant.index (.list elems) (.int i) = some p.1) ∧
      (i < 0 ∨ (elems.length : Int) ≤ i →
        Constant.index (.list elems) (.int i) = none)) ∧
    (∀ (elems : List (Constant × Option Constant)) (key : Constant), key.isInt = false →
      Constant.index (.list elems) key = (elems.find? fun p => constEq key p.1).bind Prod.snd) ∧
    (∀ (c key : Constant), (∀ es, c ≠ .list es) → Constant.index c key = none) := by
  refine ⟨?_, ?_, ?_⟩
  · intro elems i h₁ h₂ hlen
    constructor
    · intro p hnn hp
      show (elems.get? (usizeOfI32 i)).map Prod.fst = some p.1
      have hub : usizeOfI32 i = i.toNat := by
        unfold usizeOfI32
        omega
      rw [hub, hp]
      rfl
    · intro hout
      show (elems.get? (usizeOfI32 i)).map Prod.fst = none
      have hnone : elems.get? (usizeOfI32 i) = none := by
        apply List.get?_eq_none.mpr
        rcases hout with hneg | hge
        · have : 2 ^ 63 ≤ usizeOfI32 i := by
            unfold usizeOfI32
            omega
          omega
        · have : elems.length ≤ usizeOfI32 i := by
            unfold usizeOfI32
            omega
          omega
      rw [hnone]
      rfl
  · intro elems key hk
    cases key with
    | int i => simp [Constant.isInt] at hk
    | null tp => exact indexScan_eq_find _ elems
    | new t a => exact indexScan_eq_find _ elems
    | list es => exact indexScan_eq_find _ elems
    | call f a => exact indexScan_eq_find _ elems
    | prefab p v => exact indexScan_eq_find _ elems
    | string s => exact indexScan_eq_find _ elems
    | resource s => exact indexScan_eq_find _ elems
    | float f => exact indexScan_eq_find _ elems
  · intro c key h
    cases c with
    | list es => exact absurd rfl (h es)
    | null tp => cases key <;> rfl
    | new t a => cases key <;> rfl
    | call f a => cases key <;> rfl
    | prefab p v => cases key <;> rfl
    | string s => cases key <;> rfl
    | resource s => cases key <;> rfl
    | int i => cases key <;> rfl
    | float f => cases key <;> rfl

/-- Witness for C10 at a concrete two-element list. -/
theorem claim_C10_witness :
    Constant.index (.list [(.string "k", some (.int 1)), (.int 5, none)]) (.int 1)
      = some (.int 5) ∧
    Constant.index (.list [(.string "k", some (.int 1)), (.int 5, none)]) (.int (-1))
      = none ∧
    Constant.index (.list [(.string "k", some (.int 1)), (.int 5, none)]) (.string "k")
      = some (.int 1) ∧
    Constant.index (.string "z") (.int 0) = none := by
  refine ⟨?_, ?_, ?_, ?_⟩
  · exact (claim_C10.1 _ 1 (by norm_num) (by norm_num) (by norm_num)).1
      (.int 5, none) (by norm_num) rfl
  · exact (claim_C10.1 _ (-1) (by norm_num) (by norm_num) (by norm_num)).2
      (Or.inl (by norm_num))
  · rw [claim_C10.2.1 _ (.string "k") rfl]
    norm_num [List.find?, constEq]
  · exact claim_C10.2.2 (.string "z") (.int 0) (fun es h => by cases h)

/-! ## C5: the `rgb` builtin -/

theorem hexConcat_map (is : List Int) :
    hexConcat (is.map Constant.int) = strConcat (is.map fun i => hex2 (clampByte i)) := by
  induction is with
  | nil => rfl
  | cons i rest ih => simp [hexConcat, strConcat, ih]

/-- Behaviour of the `rgb` argument loop on a successful argument run:
all-integer runs append the clamped two-digit hex of each argument in
order; a run containing a non-integer constant stops with the malformed
diagnostic. -/
theorem rgbArgs_spec {fuel : Nat} {st : St} {loc ty : Nat} {es : List Expression}
    {cs : List Constant} {st' : St} (h : RgbSeq fuel st loc ty es cs st') :
    ∀ acc,
      ((∀ c ∈ cs, c.isInt = true) →
        runF fuel (.rgbArgs loc ty es acc) st = (st', .ok (acc ++ hexConcat cs))) ∧
      ((∃ c ∈ cs, c.isInt = false) →
        ∃ st'', runF fuel (.rgbArgs loc ty es acc) st
          = (st'', .error (.err ⟨loc, "malformed rgb() call"⟩))) := by
  induction h with
  | nil fuel st loc ty =>
    intro acc
    constructor
    · intro _
      show (st, Except.ok acc) = (st, Except.ok (acc ++ hexConcat []))
      simp [hexConcat]
    · rintro ⟨c, hc, -⟩
      exact absurd hc (List.not_mem_nil c)
  | cons hrun hseq ih =>
    rename_i fuel st st₁ st₂ loc ty e es c cs
    intro acc
    constructor
    · intro hall
      have hc := hall c (List.mem_cons_self c cs)
      obtain ⟨i, rfl⟩ : ∃ i, c = .int i := by
        cases c <;> simp [Constant.isInt] at hc ⊢
      show rbind (runF fuel (.exprT loc ty e none) st) _ = _
      rw [hrun]
      show runF fuel (.rgbArgs loc ty es (acc ++ hex2 (clampByte i))) st₁ = _
      rw [(ih (acc ++ hex2 (clampByte i))).1 fun c hc => hall c (List.mem_cons_of_mem _ hc)]
      simp [hexConcat, String.append_assoc]
    · rintro ⟨c', hc', hni⟩
      rcases List.mem_cons.mp hc' with heq | hmem
      · subst heq
        refine ⟨st₁, ?_⟩
        show rbind (runF fuel (.exprT loc ty e none) st) _ = _
        rw [hrun]
        cases c' <;> first | rfl | simp [Constant.isInt] at hni
      · by_cases hci : c.isInt = true
        · obtain ⟨i, rfl⟩ : ∃ i, c = .int i := by
            cases c <;> simp [Constant.isInt] at hci ⊢
          obtain ⟨st'', hst''⟩ := (ih (acc ++ hex2 (clampByte i))).2 ⟨c', hmem, hni⟩
          refine ⟨st'', ?_⟩
          show rbind (runF fuel (.exprT loc ty e none) st) _ = _
          rw [hrun]
          exact hst''
        · refine ⟨st₁, ?_⟩
          show rbind (runF fuel (.exprT loc ty e none) st) _ = _
          rw [hrun]
          cases c <;> first | rfl | simp [Constant.isInt] at hci

/-- C5: an `rgb` call with arity other than 3 or 4 fails with the
malformed-rgb diagnostic before folding any argument; with correct arity,
if the arguments fold to integers the result is the string `#` followed by
each argument's value clamped to `[0, 255]` as two lowercase hex digits in
order, and if any argument folds to a non-integer constant the call fails
with the malformed-rgb diagnostic. -/
theorem claim_C5 (fuel loc ty : Nat) (st : St) (args : List Expression)
    (hint : Option TypePath) :
    (args.length ≠ 3 → args.length ≠ 4 →
      runF (fuel + 1) (.termT loc ty (.call "rgb" args) hint) st
        = (st, .error (.err ⟨loc, "malformed rgb() call"⟩))) ∧
    (∀ cs st', RgbSeq fuel st loc ty args cs st' →
      (args.length = 3 ∨ args.length = 4) →
      ((∀ is : List Int, cs = is.map Constant.int →
        runF (fuel + 1) (.termT loc ty (.call "rgb" args) hint) st
          = (st', .ok (.string ("#" ++ strConcat (is.map fun i => hex2 (clampByte i)))))) ∧
      ((∃ c ∈ cs, c.isInt = false) →
        ∃ st'', runF (fuel + 1) (.termT loc ty (.call "rgb" args) hint) st
          = (st'', .error (.err ⟨loc, "malformed rgb() call"⟩))))) := by
  have hstep : runF (fuel + 1) (.termT loc ty (.call "rgb" args) hint) st
      = (if args.length ≠ 3 ∧ args.length ≠ 4 then
          (st, .error (.err ⟨loc, "malformed rgb() call"⟩))
        else rbind (runF fuel (.rgbArgs loc ty args "#") st) fun st₁ s =>
          (st₁, .ok (.string s))) := rfl
  constructor
  · intro h3 h4
    rw [hstep, if_pos ⟨h3, h4⟩]
  · intro cs st' hseq harity
    have harity' : ¬(args.length ≠ 3 ∧ args.length ≠ 4) := by
      rcases harity with h | h <;> simp [h]
    constructor
    · intro is hcs
      subst hcs
      rw [hstep, if_neg harity']
      rw [(rgbArgs_spec hseq "#").1 ?hall]
      case hall =>
        intro c hc
        obtain ⟨i, -, rfl⟩ := List.mem_map.mp hc
        rfl
      rw [hexConcat_map]
      rfl
    · intro hex
      obtain ⟨st'', hst''⟩ := (rgbArgs_spec hseq "#").2 hex
      refine ⟨st'', ?_⟩
      rw [hstep, if_neg harity', hst'']
      rfl

/-- Witness for C5: the empty argument list trips the arity check; the
spec's two concrete examples compute through the theorem. -/
theorem claim_C5_witness :
    runF 1 (.termT 0 0 (.call "rgb" []) none) st0
      = (st0, .error (.err ⟨0, "malformed rgb() call"⟩)) ∧
    runF 6 (.termT 0 0 (.call "rgb" [litE 255, litE 0, litE 128]) none) st0
      = (st0, .ok (.string ("#" ++ strConcat ([(255 : Int), 0, 128].map
          fun i => hex2 (clampByte i))))) ∧
    "#" ++ strConcat ([(255 : Int), 0, 128].map fun i => hex2 (clampByte i)) = "#ff0080" ∧
    runF 6 (.termT 0 0 (.call "rgb" [litE 256, litE (-1), litE 0]) none) st0
      = (st0, .ok (.string ("#" ++ strConcat ([(256 : Int), -1, 0].map
          fun i => hex2 (clampByte i))))) ∧
    "#" ++ strConcat ([(256 : Int), -1, 0].map fun i => hex2 (clampByte i)) = "#ff0000" := by
  have hS₁ : RgbSeq 5 st0 0 0 [litE 255, litE 0, litE 128]
      [.int 255, .int 0, .int 128] st0 :=
    .cons rfl (.cons rfl (.cons rfl (.nil 1 st0 0 0)))
  have hS₂ : RgbSeq 5 st0 0 0 [litE 256, litE (-1), litE 0]
      [.int 256, .int (-1), .int 0] st0 :=
    .cons rfl (.cons rfl (.cons rfl (.nil 1 st0 0 0)))
  refine ⟨(claim_C5 0 0 0 st0 [] none).1 (by decide) (by decide), ?_, rfl, ?_, rfl⟩
  · exact (((claim_C5 5 0 0 st0 _ none).2 _ st0 hS₁ (Or.inl rfl)).1 [255, 0, 128] rfl)
  · exact (((claim_C5 5 0 0 st0 _ none).2 _ st0 hS₂ (Or.inl rfl)).1 [256, -1, 0] rfl)

/-! ## C8: field follow on a type-hinted null -/

theorem joinSegs_foldl (th : TypePath) :
    ∀ acc : String, th.foldl (fun acc seg => acc ++ "/" ++ seg.2) acc = acc ++ joinSegs th := by
  induction th with
  | nil =>
    intro acc
    show acc = acc ++ ""
    simp
  | cons seg rest ih =>
    intro acc
    show List.foldl _ (acc ++ "/" ++ seg.2) rest = acc ++ ("/" ++ seg.2 ++ joinSegs rest)
    rw [ih (acc ++ "/" ++ seg.2)]
    simp [String.append_assoc]

theorem joinSegs_map_snd {th th' : TypePath} (h : th.map Prod.snd = th'.map Prod.snd) :
    joinSegs th = joinSegs th' := by
  induction th generalizing th' with
  | nil =>
    cases th' with
    | nil => rfl
    | cons a l => simp at h
  | cons seg rest ih =>
    cases th' with
    | nil => simp at h
    | cons seg' rest' =>
      simp only [List.map_cons, List.cons.injEq] at h
      show "/" ++ seg.2 ++ joinSegs rest = "/" ++ seg'.2 ++ joinSegs rest'
      rw [h.1, ih h.2]

/-- C8: `Field(name)` on `Null(Some(type_hint))` rebuilds the absolute
path from the segment names alone (segment prefixes are ignored), fails
with the unknown-typepath diagnostic when no class has that path, and
otherwise resolves `name` on that class through `recursive_lookup` with
`must_be_static = true`; every other (term, follow) pair fails with the
non-constant-expression-followers diagnostic. -/
theorem claim_C8 (fuel loc ty : Nat) (st : St) :
    (∀ (th th' : TypePath) (name : String), th.map Prod.snd = th'.map Prod.snd →
      runF (fuel + 1) (.followOne loc ty (.null (some th)) (.field name)) st
        = runF (fuel + 1) (.followOne loc ty (.null (some th')) (.field name)) st) ∧
    (∀ (th : TypePath) (name : String), alGet st.tree.types (joinSegs th) = none →
      runF (fuel + 1) (.followOne loc ty (.null (some th)) (.field name)) st
        = (st, .error (.err ⟨loc, "unknown typepath " ++ joinSegs th⟩))) ∧
    (∀ (th : TypePath) (name : String) (idx : Nat),
      alGet st.tree.types (joinSegs th) = some idx →
      runF (fuel + 1) (.followOne loc ty (.null (some th)) (.field name)) st
        = recursive_lookup fuel st loc idx name true) ∧
    (∀ (c : Constant) (f : Follow), (∀ th n, ¬(c = .null (some th) ∧ f = .field n)) →
      runF (fuel + 1) (.followOne loc ty c f) st
        = (st, .error (.err ⟨loc, "non-constant expression followers: "
            ++ dbgConstant c ++ "." ++ dbgFollow f⟩))) := by
  have hpath : ∀ th : TypePath,
      th.foldl (fun acc seg => acc ++ "/" ++ seg.2) "" = joinSegs th := by
    intro th
    rw [joinSegs_foldl th ""]
    show "".append (joinSegs th) = joinSegs th
    cases h : joinSegs th
    rfl
  have hstep : ∀ (th : TypePath) (name : String),
      runF (fuel + 1) (.followOne loc ty (.null (some th)) (.field name)) st
        = ((match alGet st.tree.types (joinSegs th) with
          | some idx => recursive_lookup fuel st loc idx name true
          | none => (st, .error (.err ⟨loc, "unknown typepath " ++ joinSegs th⟩)))
          : St × Except Failure Constant) := by
    intro th name
    rw [show runF (fuel + 1) (.followOne loc ty (.null (some th)) (.field name)) st
        = ((match alGet st.tree.types (th.foldl (fun acc seg => acc ++ "/" ++ seg.2) "") with
          | some idx => recursive_lookup fuel st loc idx name true
          | none => (st, .error (.err ⟨loc, "unknown typepath "
              ++ th.foldl (fun acc seg => acc ++ "/" ++ seg.2) ""⟩)))
          : St × Except Failure Constant) from rfl, hpath th]
  refine ⟨?_, ?_, ?_, ?_⟩
  · intro th th' name h
    rw [hstep th name, hstep th' name, joinSegs_map_snd h]
  · intro th name h
    rw [hstep th name, h]
  · intro th name idx h
    rw [hstep th name, h]
  · intro c f h
    cases c with
    | null tp =>
      cases tp with
      | none => cases f <;> rfl
      | some th =>
        cases f with
        | field n => exact absurd ⟨rfl, rfl⟩ (h th n)
        | index e => rfl
        | callF n a => rfl
    | new t a => cases f <;> rfl
    | list es => cases f <;> rfl
    | call fn a => cases f <;> rfl
    | prefab p v => cases f <;> rfl
    | string s => cases f <;> rfl
    | resource s => cases f <;> rfl
    | int i => cases f <;> rfl
    | float x => cases f <;> rfl

/-- Witness for C8: concrete unknown path, prefix invariance between a
dot-prefixed and a slash-prefixed segment, and a non-null receiver. -/
theorem claim_C8_witness :
    runF 1 (.followOne 0 0 (.null (some [(.dot, "C")])) (.field "M")) st0
      = (st0, .error (.err ⟨0, "unknown typepath " ++ joinSegs [(.dot, "C")]⟩)) ∧
    runF 1 (.followOne 0 0 (.null (some [(.dot, "C")])) (.field "M")) st0
      = runF 1 (.followOne 0 0 (.null (some [(.slash, "C")])) (.field "M")) st0 ∧
    runF 1 (.followOne 0 0 (.int 1) (.field "x")) st0
      = (st0, .error (.err ⟨0, "non-constant expression followers: "
          ++ dbgConstant (.int 1) ++ "." ++ dbgFollow (.field "x")⟩)) :=
  ⟨(claim_C8 0 0 0 st0).2.1 [(.dot, "C")] "M" rfl,
   (claim_C8 0 0 0 st0).1 [(.dot, "C")] [(.slash, "C")] "M" rfl,
   (claim_C8 0 0 0 st0).2.2.2 (.int 1) (.field "x")
     (fun _th _n hc => Constant.noConfusion hc.1)⟩

/-! ## C1: the driver aborts at the first resolution error -/

/-- C1 counterexample to the claim as stated: in `stAbort` the first
variable's resolution fails, `evaluate_all` returns that error through
`?` immediately, and the second variable — which resolves fine on its own
— is left unvisited with no constant stored. -/
theorem claim_C1_counterexample :
    (evaluate_all 20 stAbort).2 = .error (.err ⟨1, "non-constant augmented assignment"⟩) ∧
    (slotAt (evaluate_all 20 stAbort).1 0 "good").map (fun v => v.constant) = some none ∧
    (constant_ident_lookup 20 stAbort 0 "good" false).2 = .ok (.found [] (.int 5)) :=
  ⟨rfl, rfl, rfl⟩

/-- C1 (amended): a resolution error is propagated by `evaluate_all`
immediately — the inner loop returns it without touching the remaining
variable names (whatever they are), and the outer loop returns it without
visiting the remaining classes. -/
theorem claim_C1_amended :
    (∀ (fuel ty : Nat) (st st₁ : St) (key : String) (rest : List String) (e : Failure),
      (match getDeclaration st.tree ty key with
       | some d => d.const_evaluable
       | none => true) = true →
      constant_ident_lookup fuel st ty key false = (st₁, .error e) →
      evalKeys fuel ty st (key :: rest) = (st₁, .error e)) ∧
    (∀ (fuel ty : Nat) (st st₁ : St) (rest : List Nat) (node : TypeNode) (e : Failure),
      getNode st.tree ty = some node →
      evalKeys fuel ty st (node.vars.map Prod.fst) = (st₁, .error e) →
      evalNodes fuel st (ty :: rest) = (st₁, .error e)) := by
  constructor
  · intro fuel ty st st₁ key rest e hdecl hlook
    show (if (match getDeclaration st.tree ty key with
              | some d => !d.const_evaluable
              | none => false) = true
          then evalKeys fuel ty st rest
          else match constant_ident_lookup fuel st ty key false with
            | (st₁, .ok (.found _ _)) => evalKeys fuel ty st₁ rest
            | (st₁, .ok (.next _)) =>
              match getNode st₁.tree ty with
              | some node => (st₁, .error (.panicked (key ++ " " ++ node.path)))
              | none => (st₁, .error (.panicked "node_weight unwrap"))
            | (st₁, .error e) => (st₁, .error e)) = (st₁, .error e)
    rw [if_neg, hlook]
    revert hdecl
    cases getDeclaration st.tree ty key with
    | none => simp
    | some d =>
      intro h
      simp only [] at h
      simp [h]
  · intro fuel ty st st₁ rest node e hnode hkeys
    show (match getNode st.tree ty with
          | none => (st, .error (.panicked "node_weight unwrap"))
          | some n =>
            match evalKeys fuel ty st (n.vars.map Prod.fst) with
            | (st₂, .ok ()) => evalNodes fuel st₂ rest
            | (st₂, .error e₂) => (st₂, .error e₂)) = (st₁, .error e)
    rw [hnode]
    show (match evalKeys fuel ty st (node.vars.map Prod.fst) with
          | (st₂, .ok ()) => evalNodes fuel st₂ rest
          | (st₂, .error e₂) => (st₂, .error e₂)) = (st₁, .error e)
    rw [hkeys]

/-! ## C2: the sticky `being_evaluated` flag (code bug) -/

/-- C2: the code evaluated at the failing input.  The slot `bad` of
`stAbort` enters folding, the fold fails, and the resolver's error path
(`?` on line 69 of `constants.rs`) returns without ever clearing
`being_evaluated`: the flag is still set and no constant is stored, while
the claim (and spec sections 7 and 9) require the flag to be cleared on
every exit path. -/
theorem claim_C2_bug :
    (constant_ident_lookup 20 stAbort 0 "bad" false).2
      = .error (.err ⟨1, "non-constant augmented assignment"⟩) ∧
    (slotAt (constant_ident_lookup 20 stAbort 0 "bad" false).1 0 "bad").map
      (fun v => v.being_evaluated) = some true ∧
    (slotAt (constant_ident_lookup 20 stAbort 0 "bad" false).1 0 "bad").map
      (fun v => v.constant) = some none :=
  ⟨rfl, rfl, rfl⟩

/-- Witness for C1 (amended) at the concrete aborting tree. -/
theorem claim_C1_amended_witness :
    evalKeys 20 0 stAbort ["bad", "good"]
      = ((constant_ident_lookup 20 stAbort 0 "bad" false).1,
         .error (.err ⟨1, "non-constant augmented assignment"⟩)) ∧
    evalNodes 20 stAbort [0]
      = ((constant_ident_lookup 20 stAbort 0 "bad" false).1,
         .error (.err ⟨1, "non-constant augmented assignment"⟩)) := by
  have hlook : constant_ident_lookup 20 stAbort 0 "bad" false
      = ((constant_ident_lookup 20 stAbort 0 "bad" false).1,
         .error (.err ⟨1, "non-constant augmented assignment"⟩)) := by
    rw [show (.error (.err ⟨1, "non-constant augmented assignment"⟩)
          : Except Failure ConstLookup)
        = (constant_ident_lookup 20 stAbort 0 "bad" false).2 from rfl]
  have hkeys := claim_C1_amended.1 20 0 stAbort _ "bad" ["good"] _ rfl hlook
  exact ⟨hkeys, claim_C1_amended.2 20 0 stAbort _ [] _ _ rfl hkeys⟩

/-! ## C9: the list-key warning goes to standard output -/

/-- C9 counterexample to the claim as stated: folding
`list(a = 1)` — whose key is the bare identifier `a` — does reduce the key
to `String("a")`, but the warning is written directly to standard output
by `println!`; the stdout log of the run is not empty, refuting "never
writes to standard output or standard error directly". -/
theorem claim_C9_counterexample :
    runF 9 (.termT 0 0 (.list [(identE "a", some (litE 1))]) none) st0
      = (⟨⟨[], []⟩, ["WARNING: ident used as list key: a"], []⟩,
         .ok (.list [(.string "a", some (.int 1))])) ∧
    st0.stdout = [] ∧
    (runF 9 (.termT 0 0 (.list [(identE "a", some (litE 1))]) none) st0).1.stdout ≠ [] := by
  refine ⟨rfl, rfl, ?_⟩
  intro h
  rw [show (runF 9 (.termT 0 0 (.list [(identE "a", some (litE 1))]) none) st0).1.stdout
      = ["WARNING: ident used as list key: a"] from rfl] at h
  exact List.noConfusion h

/-! ## State-evolution plumbing -/

theorem forall₂_refl {α : Type} {R : α → α → Prop} (h : ∀ a, R a a) (l : List α) :
    List.Forall₂ R l l := by
  induction l with
  | nil => exact .nil
  | cons a rest ih => exact .cons (h a) ih

theorem forall₂_trans {α : Type} {R : α → α → Prop}
    (h : ∀ a b c, R a b → R b c → R a c) :
    ∀ {l₁ l₂ l₃ : List α}, List.Forall₂ R l₁ l₂ → List.Forall₂ R l₂ l₃ →
      List.Forall₂ R l₁ l₃ := by
  intro l₁ l₂ l₃ h₁₂
  induction h₁₂ generalizing l₃ with
  | nil =>
    intro h₂₃
    cases h₂₃
    exact .nil
  | cons hab htail ih =>
    intro h₂₃
    cases h₂₃ with
    | cons hbc htail' => exact .cons (h _ _ _ hab hbc) (ih htail')

theorem forall₂_get?_left {α : Type} {R : α → α → Prop} :
    ∀ {l l' : List α}, List.Forall₂ R l l' → ∀ {i : Nat} {a : α},
      l.get? i = some a → ∃ b, l'.get? i = some b ∧ R a b := by
  intro l l' h
  induction h with
  | nil => intro i a ha; cases ha
  | cons hab htail ih =>
    intro i a ha
    cases i with
    | zero =>
      refine ⟨_, rfl, ?_⟩
      cases ha
      exact hab
    | succ j => exact ih ha

theorem EvSlot_refl (v : VarValue) : EvSlot v v :=
  ⟨rfl, rfl, fun _ h => h, fun h => ⟨h, fun _ => rfl⟩⟩

theorem EvSlot_trans {u v w : VarValue} (h₁ : EvSlot u v) (h₂ : EvSlot v w) : EvSlot u w := by
  obtain ⟨l₁, e₁, c₁, b₁⟩ := h₁
  obtain ⟨l₂, e₂, c₂, b₂⟩ := h₂
  refine ⟨l₂.trans l₁, e₂.trans e₁, fun c hc => c₂ c (c₁ c hc), fun hb => ?_⟩
  obtain ⟨hb₁, hc₁⟩ := b₁ hb
  obtain ⟨hb₂, hc₂⟩ := b₂ hb₁
  refine ⟨hb₂, fun he => ?_⟩
  rw [hc₂ (by rw [e₁]; exact he), hc₁ he]

theorem EvPair_refl (p : String × VarValue) : EvPair p p := ⟨rfl, EvSlot_refl p.2⟩

theorem EvPair_trans {p q r : String × VarValue} (h₁ : EvPair p q) (h₂ : EvPair q r) :
    EvPair p r := ⟨h₂.1.trans h₁.1, EvSlot_trans h₁.2 h₂.2⟩

theorem EvNode_refl (n : TypeNode) : EvNode n n :=
  ⟨rfl, rfl, rfl, forall₂_refl EvPair_refl n.vars⟩

theorem EvNode_trans {a b c : TypeNode} (h₁ : EvNode a b) (h₂ : EvNode b c) : EvNode a c :=
  ⟨h₂.1.trans h₁.1, h₂.2.1.trans h₁.2.1, h₂.2.2.1.trans h₁.2.2.1,
   @forall₂_trans _ EvPair (fun _ _ _ hab hbc => EvPair_trans hab hbc) _ _ _ h₁.2.2.2 h₂.2.2.2⟩

theorem EvTree_refl (t : ObjectTree) : EvTree t t := ⟨rfl, forall₂_refl EvNode_refl t.nodes⟩

theorem EvTree_trans {t u v : ObjectTree} (h₁ : EvTree t u) (h₂ : EvTree u v) : EvTree t v :=
  ⟨h₂.1.trans h₁.1, @forall₂_trans _ EvNode (fun _ _ _ hab hbc => EvNode_trans hab hbc) _ _ _ h₁.2 h₂.2⟩

theorem Ev_refl (st : St) : Ev st st :=
  ⟨EvTree_refl st.tree, ⟨[], by simp⟩, ⟨[], by simp⟩, fun h => h⟩

theorem Ev_trans {s t u : St} (h₁ : Ev s t) (h₂ : Ev t u) : Ev s u := by
  obtain ⟨t₁, ⟨o₁, ho₁⟩, ⟨f₁, hf₁⟩, i₁⟩ := h₁
  obtain ⟨t₂, ⟨o₂, ho₂⟩, ⟨f₂, hf₂⟩, i₂⟩ := h₂
  exact ⟨EvTree_trans t₁ t₂, ⟨o₁ ++ o₂, by rw [ho₂, ho₁, List.append_assoc]⟩,
    ⟨f₁ ++ f₂, by rw [hf₂, hf₁, List.append_assoc]⟩, fun h => i₂ (i₁ h)⟩

theorem Ev_rbind {α β : Type} {st : St} (x : St × Except Failure α)
    (f : St → α → St × Except Failure β)
    (hx : Ev st x.1) (hf : ∀ a, Ev x.1 (f x.1 a).1) : Ev st (rbind x f).1 := by
  obtain ⟨st₁, r⟩ := x
  cases r with
  | ok a => exact Ev_trans hx (hf a)
  | error e => exact hx

/-! ### Lookup behaviour of the state updates -/

theorem listModify_get?_self {α : Type} (g : α → α) :
    ∀ (i : Nat) (l : List α), (listModify g i l).get? i = (l.get? i).map g := by
  intro i
  induction i with
  | zero =>
    intro l
    cases l <;> rfl
  | succ j ih =>
    intro l
    cases l with
    | nil => rfl
    | cons a rest => exact ih rest

theorem listModify_get?_other {α : Type} (g : α → α) :
    ∀ (i j : Nat) (l : List α), j ≠ i → (listModify g i l).get? j = l.get? j := by
  intro i
  induction i with
  | zero =>
    intro j l hj
    cases l with
    | nil => rfl
    | cons a rest =>
      cases j with
      | zero => exact absurd rfl hj
      | succ k => rfl
  | succ i' ih =>
    intro j l hj
    cases l with
    | nil => rfl
    | cons a rest =>
      cases j with
      | zero => rfl
      | succ k => exact ih k rest (fun h => hj (by rw [h]))

theorem alGet_alUpd_self {α : Type} (key : String) (f : α → α) :
    ∀ l : List (String × α), alGet (alUpd l key f) key = (alGet l key).map f := by
  intro l
  induction l with
  | nil => rfl
  | cons p rest ih =>
    obtain ⟨k, v⟩ := p
    by_cases h : k = key
    · simp [alUpd, alGet, h]
    · simp [alUpd, alGet, h, ih]

theorem alGet_alUpd_other {α : Type} (key k : String) (f : α → α) (h : k ≠ key) :
    ∀ l : List (String × α), alGet (alUpd l key f) k = alGet l k := by
  intro l
  induction l with
  | nil => rfl
  | cons p rest ih =>
    obtain ⟨k₁, v⟩ := p
    by_cases h₁ : k₁ = key
    · subst h₁
      show alGet (if k₁ = k₁ then (k₁, f v) :: rest else (k₁, v) :: alUpd rest k₁ f) k
        = alGet ((k₁, v) :: rest) k
      rw [if_pos rfl]
      show (if k₁ = k then some (f v) else alGet rest k)
        = (if k₁ = k then some v else alGet rest k)
      rw [if_neg (fun hh => h hh.symm), if_neg (fun hh => h hh.symm)]
    · show alGet (if k₁ = key then (k₁, f v) :: rest else (k₁, v) :: alUpd rest key f) k
        = alGet ((k₁, v) :: rest) k
      rw [if_neg h₁]
      show (if k₁ = k then some v else alGet (alUpd rest key f) k)
        = (if k₁ = k then some v else alGet rest k)
      rw [ih]

theorem slotAt_updVar_self (st : St) (ty : Nat) (id : String) (f : VarValue → VarValue) :
    slotAt (st.updVar ty id f) ty id = (slotAt st ty id).map f := by
  show ((listModify (fun n => { n with vars := alUpd n.vars id f }) ty st.tree.nodes).get?
      ty).bind (fun n => alGet n.vars id)
    = ((st.tree.nodes.get? ty).bind (fun n => alGet n.vars id)).map f
  rw [listModify_get?_self]
  cases st.tree.nodes.get? ty with
  | none => rfl
  | some n =>
    show alGet (alUpd n.vars id f) id = (alGet n.vars id).map f
    exact alGet_alUpd_self id f n.vars

theorem slotAt_updVar_other (st : St) (ty : Nat) (id : String) (f : VarValue → VarValue)
    (ty' : Nat) (id' : String) (h : ty' ≠ ty ∨ id' ≠ id) :
    slotAt (st.updVar ty id f) ty' id' = slotAt st ty' id' := by
  rcases h with h | h
  · show ((listModify (fun n => { n with vars := alUpd n.vars id f }) ty st.tree.nodes).get?
        ty').bind (fun n => alGet n.vars id')
      = (st.tree.nodes.get? ty').bind (fun n => alGet n.vars id')
    rw [listModify_get?_other _ ty ty' _ h]
  · by_cases hty : ty' = ty
    · subst hty
      show ((listModify (fun n => { n with vars := alUpd n.vars id f }) ty' st.tree.nodes).get?
          ty').bind (fun n => alGet n.vars id')
        = (st.tree.nodes.get? ty').bind (fun n => alGet n.vars id')
      rw [listModify_get?_self]
      cases st.tree.nodes.get? ty' with
      | none => rfl
      | some n => exact alGet_alUpd_other id id' f h n.vars
    · show ((listModify (fun n => { n with vars := alUpd n.vars id f }) ty st.tree.nodes).get?
          ty').bind (fun n => alGet n.vars id')
        = (st.tree.nodes.get? ty').bind (fun n => alGet n.vars id')
      rw [listModify_get?_other _ ty ty' _ hty]

/-! ### Evolution across a single slot update -/

theorem forall₂_EvPair_alUpd {key : String} {f : VarValue → VarValue} :
    ∀ {vs vs₁ : List (String × VarValue)},
      List.Forall₂ EvPair vs vs₁ →
      (∀ v v₁, alGet vs key = some v → EvSlot v v₁ → EvSlot v (f v₁)) →
      List.Forall₂ EvPair vs (alUpd vs₁ key f) := by
  intro vs vs₁ h
  induction h with
  | nil => intro _; exact .nil
  | cons hp htail ih =>
    rename_i p q vs' vs₁'
    intro hf
    obtain ⟨k, v⟩ := p
    obtain ⟨k₁, v₁⟩ := q
    obtain ⟨hk, hs⟩ := hp
    by_cases hkey : k₁ = key
    · show List.Forall₂ EvPair ((k, v) :: vs')
        (if k₁ = key then (k₁, f v₁) :: vs₁' else (k₁, v₁) :: alUpd vs₁' key f)
      rw [if_pos hkey]
      refine .cons ⟨hk, ?_⟩ htail
      refine hf v v₁ ?_ hs
      show (if k = key then some v else alGet vs' key) = some v
      rw [if_pos ((hk.symm.trans hkey : k = key))]
    · show List.Forall₂ EvPair ((k, v) :: vs')
        (if k₁ = key then (k₁, f v₁) :: vs₁' else (k₁, v₁) :: alUpd vs₁' key f)
      rw [if_neg hkey]
      refine .cons ⟨hk, hs⟩ (ih ?_)
      intro v₀ v₁' hget hslot
      refine hf v₀ v₁' ?_ hslot
      show (if k = key then some v else alGet vs' key) = some v₀
      rw [if_neg (fun hh => hkey (hk.trans hh))]
      exact hget

theorem forall₂_EvNode_listModify {id : String} {f : VarValue → VarValue} :
    ∀ {ns ns₁ : List TypeNode} {ty : Nat},
      List.Forall₂ EvNode ns ns₁ →
      (∀ a v v₁, ns.get? ty = some a → alGet a.vars id = some v →
        EvSlot v v₁ → EvSlot v (f v₁)) →
      List.Forall₂ EvNode ns
        (listModify (fun n => { n with vars := alUpd n.vars id f }) ty ns₁) := by
  intro ns ns₁ ty h
  induction h generalizing ty with
  | nil =>
    intro _
    have hnil : listModify (fun n => { n with vars := alUpd n.vars id f }) ty
        ([] : List TypeNode) = [] := by
      cases ty <;> rfl
    rw [hnil]
    exact .nil
  | cons hab htail ih =>
    rename_i a b ns' ns₁'
    intro hf
    cases ty with
    | zero =>
      show List.Forall₂ EvNode (a :: ns') ({ b with vars := alUpd b.vars id f } :: ns₁')
      refine .cons ?_ htail
      obtain ⟨hpath, hparent, hdecls, hvars⟩ := hab
      exact ⟨hpath, hparent, hdecls,
        forall₂_EvPair_alUpd hvars (fun v v₁ hget hs => hf a v v₁ rfl hget hs)⟩
    | succ ty' =>
      show List.Forall₂ EvNode (a :: ns')
        (b :: listModify (fun n => { n with vars := alUpd n.vars id f }) ty' ns₁')
      exact .cons hab (ih (fun a' v v₁ hget halg hs => hf a' v v₁ hget halg hs))

theorem openableAt_updVar {st : St} {ty : Nat} {id : String} {f : VarValue → VarValue}
    (hno : ∀ w, ¬ openableV (f w)) (p : Nat × String) :
    openableAt (st.updVar ty id f) p → openableAt st p := by
  rintro ⟨w, hw, how⟩
  by_cases hps : p.1 = ty ∧ p.2 = id
  · exfalso
    obtain ⟨h1, h2⟩ := hps
    rw [h1, h2, slotAt_updVar_self] at hw
    cases hs : slotAt st ty id with
    | none =>
      rw [hs] at hw
      cases hw
    | some w₀ =>
      rw [hs] at hw
      cases hw
      exact hno w₀ how
  · rw [slotAt_updVar_other st ty id f p.1 p.2 (not_and_or.mp hps)] at hw
    exact ⟨w, hw, how⟩

theorem Ev_updVar {st st₁ : St} {ty : Nat} {id : String} {f : VarValue → VarValue}
    (h : Ev st st₁)
    (hf : ∀ v v₁, slotAt st ty id = some v → EvSlot v v₁ → EvSlot v (f v₁))
    (hno : ∀ w, ¬ openableV (f w)) :
    Ev st (st₁.updVar ty id f) := by
  obtain ⟨⟨htypes, hnodes⟩, hout, hfolds, hinv⟩ := h
  refine ⟨⟨htypes, ?_⟩, hout, hfolds, ?_⟩
  · refine forall₂_EvNode_listModify hnodes ?_
    intro a v v₁ hget halg hs
    refine hf v v₁ ?_ hs
    show (st.tree.nodes.get? ty).bind (fun n => alGet n.vars id) = some v
    rw [hget]
    exact halg
  · intro hFI
    obtain ⟨hnd, hmem⟩ := hinv hFI
    exact ⟨hnd, fun p hp hopen => hmem p hp (openableAt_updVar hno p hopen)⟩

theorem EvSlot_mark {v v₁ : VarValue} (h : EvSlot v v₁) :
    EvSlot v { v₁ with being_evaluated := true } :=
  ⟨h.1, h.2.1, h.2.2.1, fun hb => ⟨rfl, fun he => (h.2.2.2 hb).2 he⟩⟩

theorem EvSlot_store {v v₁ : VarValue} (c : Constant) (h : EvSlot v v₁)
    (hc : v.constant = none) (hb : v.being_evaluated = false) :
    EvSlot v { v₁ with constant := some c, being_evaluated := false } :=
  ⟨h.1, h.2.1, fun c₀ hc₀ => absurd (hc.symm.trans hc₀) (by simp),
   fun hbe => absurd (hb.symm.trans hbe) (by simp)⟩

theorem EvSlot_setc {v v₁ : VarValue} (c : Constant) (h : EvSlot v v₁)
    (hc : v.constant = none) (he : v.expression = none) :
    EvSlot v { v₁ with constant := some c } :=
  ⟨h.1, h.2.1, fun c₀ hc₀ => absurd (hc.symm.trans hc₀) (by simp),
   fun hbe => ⟨(h.2.2.2 hbe).1, fun hesome => absurd (he ▸ hesome) (by simp)⟩⟩

theorem Ev_pushStdout (st : St) (s : String) : Ev st (pushStdout st s) :=
  ⟨EvTree_refl st.tree, ⟨[s], rfl⟩, ⟨[], by simp [pushStdout]⟩,
   fun h => ⟨h.1, fun p hp ho => h.2 p hp ho⟩⟩

theorem Ev_markSlot {st : St} {ty : Nat} {id : String} {v : VarValue}
    (hv : slotAt st ty id = some v) (ho : openableV v) :
    Ev st (markSlot st ty id) := by
  have hno : ∀ w, ¬ openableV ((fun w : VarValue => { w with being_evaluated := true }) w) := by
    rintro w ⟨-, hb, -⟩
    cases hb
  have hupd : Ev st (st.updVar ty id fun w : VarValue => { w with being_evaluated := true }) :=
    Ev_updVar (Ev_refl st) (fun _ v₁ _ hs => EvSlot_mark hs) hno
  refine ⟨hupd.1, ⟨[], by simp [markSlot, St.updVar]⟩, ⟨[(ty, id)], rfl⟩, ?_⟩
  intro hFI
  obtain ⟨hnd, hmem⟩ := hFI
  have hnotin : (ty, id) ∉ st.folds := fun hin => hmem _ hin ⟨v, hv, ho⟩
  constructor
  · show (st.folds ++ [(ty, id)]).Nodup
    rw [List.nodup_append]
    exact ⟨hnd, List.nodup_singleton _, by
      intro x hx hx'
      rw [List.mem_singleton] at hx'
      subst hx'
      exact hnotin hx⟩
  · intro p hp hopen
    have hopen' : openableAt (st.updVar ty id fun w : VarValue => { w with being_evaluated := true }) p :=
      hopen
    have hpm : p ∈ st.folds ++ [(ty, id)] := hp
    rcases List.mem_append.mp hpm with hp' | hp'
    · exact hmem p hp' (openableAt_updVar hno p hopen')
    · rw [List.mem_singleton] at hp'
      subst hp'
      obtain ⟨w, hw, how⟩ := hopen'
      rw [slotAt_updVar_self, hv] at hw
      cases hw
      exact hno v how

theorem Ev_setConstant {st : St} {ty : Nat} {id : String} {v : VarValue} (c : Constant)
    (hv : slotAt st ty id = some v) (hc : v.constant = none) (he : v.expression = none) :
    Ev st (setConstant st ty id c) := by
  refine Ev_updVar (Ev_refl st) ?_ ?_
  · intro v₀ v₁ hget hs
    rw [hv] at hget
    cases hget
    exact EvSlot_setc c hs hc he
  · rintro w ⟨hcv, -, -⟩
    cases hcv

theorem Ev_storeConstant_from {st st₁ : St} {ty : Nat} {id : String} {v : VarValue}
    (c : Constant) (h : Ev st st₁) (hv : slotAt st ty id = some v)
    (hc : v.constant = none) (hb : v.being_evaluated = false) :
    Ev st (storeConstant st₁ ty id c) := by
  refine Ev_updVar h ?_ ?_
  · intro v₀ v₁ hget hs
    rw [hv] at hget
    cases hget
    exact EvSlot_store c hs hc hb
  · rintro w ⟨hcv, -, -⟩
    cases hcv

/-! ## One-step equations for `runF`

Each lemma restates one arm of `runF` and holds by `rfl`; they exist
because unfolding the whole of `runF` at once is too large for the
elaborator, while a single arm reduces instantly. -/

theorem runF_zero (t : FTask) (st : St) : runF 0 t st = (st, .error .fuelOut) := rfl

theorem runF_lookup_step (fuel ty : Nat) (ident : String) (mbs : Bool) (st : St) :
    runF (fuel + 1) (.lookup ty ident mbs) st
      = ((match getNode st.tree ty with
          | none => (st, .error (.panicked "node_weight unwrap"))
          | some node =>
            match getDeclaration st.tree ty ident with
            | none => (st, .ok (.next none))
            | some decl =>
              match alGet node.vars ident with
              | none => (st, .ok (.next node.parent))
              | some v =>
                match v.constant with
                | some c => (st, .ok (.found decl.type_path c))
                | none =>
                  match v.expression with
                  | some e =>
                    if v.being_evaluated then
                      (st, .error (.err ⟨v.location,
                        "recursive constant reference: " ++ ident⟩))
                    else if !decl.const_evaluable then
                      (st, .error (.err ⟨v.location, "non-const variable: " ++ ident⟩))
                    else if !decl.is_static && mbs then
                      (st, .error (.err ⟨v.location, "non-static variable: " ++ ident⟩))
                    else
                      rbind (runF fuel
                          (.exprT v.location ty e
                            (if decl.type_path.isEmpty then none else some decl.type_path))
                          (markSlot st ty ident)) fun st₂ value =>
                        (storeConstant st₂ ty ident value,
                         .ok (.found decl.type_path value))
                  | none =>
                    (setConstant st ty ident (.null (some decl.type_path)),
                     .ok (.found decl.type_path (.null (some decl.type_path)))))
        : St × Except Failure ConstLookup) := rfl

theorem runF_exprT_base (fuel loc ty : Nat) (u : List UnaryOp) (t : Term)
    (fs : List Follow) (hint : Option TypePath) (st : St) :
    runF (fuel + 1) (.exprT loc ty (.base u t fs) hint) st
      = rbind (runF fuel (.termT loc ty t
            (if fs.isEmpty && u.isEmpty then hint else none)) st) (fun st₁ c =>
          rbind (runF fuel (.follows loc ty c fs) st₁) fun st₂ c₂ =>
            (st₂, applyUnarys loc c₂ u.reverse)) := rfl

theorem runF_exprT_binary (fuel loc ty : Nat) (op : BinaryOp) (l r : Expression)
    (hint : Option TypePath) (st : St) :
    runF (fuel + 1) (.exprT loc ty (.binaryOp op l r) hint) st
      = rbind (runF fuel (.exprT loc ty l none) st) (fun st₁ lc =>
          rbind (runF fuel (.exprT loc ty r none) st₁) fun st₂ rc =>
            (st₂, binaryK loc lc rc op)) := rfl

theorem runF_exprT_assign (fuel loc ty : Nat) (op : BinaryOp) (l r : Expression)
    (hint : Option TypePath) (st : St) :
    runF (fuel + 1) (.exprT loc ty (.assignOp op l r) hint) st
      = (st, .error (.err ⟨loc, "non-constant augmented assignment"⟩)) := rfl

theorem runF_exprList_nil (fuel loc ty : Nat) (st : St) :
    runF (fuel + 1) (.exprList loc ty []) st = (st, .ok []) := rfl

theorem runF_exprList_cons (fuel loc ty : Nat) (e : Expression) (rest : List Expression)
    (st : St) :
    runF (fuel + 1) (.exprList loc ty (e :: rest)) st
      = rbind (runF fuel (.exprT loc ty e none) st) (fun st₁ c =>
          rbind (runF fuel (.exprList loc ty rest) st₁) fun st₂ cs =>
            (st₂, .ok (c :: cs))) := rfl

theorem runF_termT_null (fuel loc ty : Nat) (hint : Option TypePath) (st : St) :
    runF (fuel + 1) (.termT loc ty .null hint) st = (st, .ok (.null hint)) := rfl

theorem runF_termT_new_prefab (fuel loc ty : Nat) (p : PrefabAst)
    (args : Option (List Expression)) (hint : Option TypePath) (st : St) :
    runF (fuel + 1) (.termT loc ty (.new (.prefab p) args) hint) st
      = rbind (runF fuel (.prefabT loc ty p) st) (fun st₁ pc =>
          rbind (runF fuel (.newArgs loc ty args) st₁) fun st₂ argsc =>
            (st₂, .ok (.new (.prefab pc.1 pc.2) argsc))) := rfl

theorem runF_termT_new_implicit (fuel loc ty : Nat) (args : Option (List Expression))
    (hint : Option TypePath) (st : St) :
    runF (fuel + 1) (.termT loc ty (.new .implicit args) hint) st
      = rbind (runF fuel (.newArgs loc ty args) st) (fun st₁ argsc =>
          (st₁, .ok (.new .implicit argsc))) := rfl

theorem runF_termT_new_ident (fuel loc ty : Nat) (s : String)
    (args : Option (List Expression)) (hint : Option TypePath) (st : St) :
    runF (fuel + 1) (.termT loc ty (.new (.identT s) args) hint) st
      = (st, .error (.err ⟨loc, "non-constant new expression"⟩)) := rfl

theorem runF_termT_list (fuel loc ty : Nat) (elems : List (Expression × Option Expression))
    (hint : Option TypePath) (st : St) :
    runF (fuel + 1) (.termT loc ty (.list elems) hint) st
      = rbind (runF fuel (.listElems loc ty elems
            (match hint with
             | some (p₀ :: rest) => if p₀.2 = "list" then some rest else none
             | _ => none)) st) (fun st₁ out => (st₁, .ok (.list out))) := rfl

theorem runF_termT_call (fuel loc ty : Nat) (ident : String) (args : List Expression)
    (hint : Option TypePath) (st : St) :
    runF (fuel + 1) (.termT loc ty (.call ident args) hint) st
      = (if ident = "matrix" then
          rbind (runF fuel (.exprList loc ty args) st) fun st₁ cs =>
            (st₁, .ok (.call .matrix cs))
        else if ident = "newlist" then
          rbind (runF fuel (.exprList loc ty args) st) fun st₁ cs =>
            (st₁, .ok (.call .newlist cs))
        else if ident = "icon" then
          rbind (runF fuel (.exprList loc ty args) st) fun st₁ cs =>
            (st₁, .ok (.call .icon cs))
        else if ident = "rgb" then
          if args.length ≠ 3 ∧ args.length ≠ 4 then
            (st, .error (.err ⟨loc, "malformed rgb() call"⟩))
          else
            rbind (runF fuel (.rgbArgs loc ty args "#") st) fun st₁ s =>
              (st₁, .ok (.string s))
        else (st, .error (.err ⟨loc, "non-constant function call: " ++ ident⟩))) := rfl

theorem runF_termT_prefab (fuel loc ty : Nat) (p : PrefabAst) (hint : Option TypePath)
    (st : St) :
    runF (fuel + 1) (.termT loc ty (.prefab p) hint) st
      = rbind (runF fuel (.prefabT loc ty p) st) (fun st₁ pc =>
          (st₁, .ok (.prefab pc.1 pc.2))) := rfl

theorem runF_termT_ident (fuel loc ty : Nat) (s : String) (hint : Option TypePath)
    (st : St) :
    runF (fuel + 1) (.termT loc ty (.ident s) hint) st
      = (if s = "null" then (st, .ok (.null hint))
         else runF fuel (.walk loc (some ty) s false) st) := rfl

theorem runF_termT_string (fuel loc ty : Nat) (v : String) (hint : Option TypePath)
    (st : St) :
    runF (fuel + 1) (.termT loc ty (.string v) hint) st = (st, .ok (.string v)) := rfl

theorem runF_termT_resource (fuel loc ty : Nat) (v : String) (hint : Option TypePath)
    (st : St) :
    runF (fuel + 1) (.termT loc ty (.resource v) hint) st = (st, .ok (.resource v)) := rfl

theorem runF_termT_int (fuel loc ty : Nat) (v : Int) (hint : Option TypePath) (st : St) :
    runF (fuel + 1) (.termT loc ty (.int v) hint) st = (st, .ok (.int v)) := rfl

theorem runF_termT_float (fuel loc ty : Nat) (v : Float) (hint : Option TypePath)
    (st : St) :
    runF (fuel + 1) (.termT loc ty (.float v) hint) st = (st, .ok (.float v)) := rfl

theorem runF_termT_expr (fuel loc ty : Nat) (e : Expression) (hint : Option TypePath)
    (st : St) :
    runF (fuel + 1) (.termT loc ty (.expr e) hint) st
      = runF fuel (.exprT loc ty e hint) st := rfl

theorem runF_follows_nil (fuel loc ty : Nat) (c : Constant) (st : St) :
    runF (fuel + 1) (.follows loc ty c []) st = (st, .ok c) := rfl

theorem runF_follows_cons (fuel loc ty : Nat) (c : Constant) (f : Follow)
    (rest : List Follow) (st : St) :
    runF (fuel + 1) (.follows loc ty c (f :: rest)) st
      = rbind (runF fuel (.followOne loc ty c f) st) (fun st₁ c₁ =>
          runF fuel (.follows loc ty c₁ rest) st₁) := rfl

theorem runF_followOne_step (fuel loc ty : Nat) (c : Constant) (f : Follow) (st : St) :
    runF (fuel + 1) (.followOne loc ty c f) st
      = ((match c, f with
          | .null (some typeHint), .field fieldName =>
            match alGet st.tree.types
                (typeHint.foldl (fun acc seg => acc ++ "/" ++ seg.2) "") with
            | some idx => runF fuel (.walk loc (some idx) fieldName true) st
            | none => (st, .error (.err ⟨loc, "unknown typepath "
                ++ typeHint.foldl (fun acc seg => acc ++ "/" ++ seg.2) ""⟩))
          | term, follow =>
            (st, .error (.err ⟨loc, "non-constant expression followers: "
              ++ dbgConstant term ++ "." ++ dbgFollow follow⟩)))
        : St × Except Failure Constant) := rfl

theorem runF_listElems_nil (fuel loc ty : Nat) (hint : Option TypePath) (st : St) :
    runF (fuel + 1) (.listElems loc ty [] hint) st = (st, .ok []) := rfl

theorem runF_listElems_cons_some (fuel loc ty : Nat) (key val : Expression)
    (rest : List (Expression × Option Expression)) (hint : Option TypePath) (st : St) :
    runF (fuel + 1) (.listElems loc ty ((key, some val) :: rest) hint) st
      = (match termOfExpr key with
         | .ident s =>
           rbind (runF fuel (.exprT loc ty val hint)
               (pushStdout st ("WARNING: ident used as list key: " ++ s))) fun st₁ valc =>
           rbind (runF fuel (.listElems loc ty rest hint) st₁) fun st₂ out =>
             (st₂, .ok ((.string s, some valc) :: out))
         | other =>
           rbind (runF fuel (.termT loc ty other hint) st) fun st₁ keyc =>
           rbind (runF fuel (.exprT loc ty val hint) st₁) fun st₂ valc =>
           rbind (runF fuel (.listElems loc ty rest hint) st₂) fun st₃ out =>
             (st₃, .ok ((keyc, some valc) :: out))) := rfl

theorem runF_listElems_cons_none (fuel loc ty : Nat) (key : Expression)
    (rest : List (Expression × Option Expression)) (hint : Option TypePath) (st : St) :
    runF (fuel + 1) (.listElems loc ty ((key, none) :: rest) hint) st
      = rbind (runF fuel (.exprT loc ty key hint) st) (fun st₁ keyc =>
          rbind (runF fuel (.listElems loc ty rest hint) st₁) fun st₂ out =>
            (st₂, .ok ((keyc, none) :: out))) := rfl

theorem runF_rgbArgs_nil (fuel loc ty : Nat) (acc : String) (st : St) :
    runF (fuel + 1) (.rgbArgs loc ty [] acc) st = (st, .ok acc) := rfl

theorem runF_rgbArgs_cons (fuel loc ty : Nat) (e : Expression) (rest : List Expression)
    (acc : String) (st : St) :
    runF (fuel + 1) (.rgbArgs loc ty (e :: rest) acc) st
      = rbind (runF fuel (.exprT loc ty e none) st) (fun st₁ c =>
          match c with
          | .int i => runF fuel (.rgbArgs loc ty rest (acc ++ hex2 (clampByte i))) st₁
          | _ => (st₁, .error (.err ⟨loc, "malformed rgb() call"⟩))) := rfl

theorem runF_prefabT_step (fuel loc ty : Nat) (p : PrefabAst) (st : St) :
    runF (fuel + 1) (.prefabT loc ty p) st
      = rbind (runF fuel (.prefabVars loc ty p.vars []) st) (fun st₁ vars =>
          (st₁, .ok (p.path, vars))) := rfl

theorem runF_prefabVars_nil (fuel loc ty : Nat) (acc : List (String × Constant)) (st : St) :
    runF (fuel + 1) (.prefabVars loc ty [] acc) st = (st, .ok acc) := rfl

theorem runF_prefabVars_cons (fuel loc ty : Nat) (k : String) (v : Expression)
    (rest : List (String × Expression)) (acc : List (String × Constant)) (st : St) :
    runF (fuel + 1) (.prefabVars loc ty ((k, v) :: rest) acc) st
      = rbind (runF fuel (.exprT loc ty v none) st) (fun st₁ c =>
          runF fuel (.prefabVars loc ty rest (lhmInsert acc k c)) st₁) := rfl

theorem runF_newArgs_none (fuel loc ty : Nat) (st : St) :
    runF (fuel + 1) (.newArgs loc ty none) st = (st, .ok none) := rfl

theorem runF_newArgs_some (fuel loc ty : Nat) (es : List Expression) (st : St) :
    runF (fuel + 1) (.newArgs loc ty (some es)) st
      = rbind (runF fuel (.exprList loc ty es) st) (fun st₁ cs =>
          (st₁, .ok (some cs))) := rfl

theorem runF_walk_none (fuel loc : Nat) (ident : String) (mbs : Bool) (st : St) :
    runF (fuel + 1) (.walk loc none ident mbs) st
      = (st, .error (.err ⟨loc, "unknown variable: " ++ ident⟩)) := rfl

theorem runF_walk_some (fuel loc ty : Nat) (ident : String) (mbs : Bool) (st : St) :
    runF (fuel + 1) (.walk loc (some ty) ident mbs) st
      = walkCont loc (fun i st₁ => runF fuel (.walk loc i ident mbs) st₁)
          (runF fuel (.lookup ty ident mbs)
            (pushStdout st ("searching type #" ++ toString ty))) := rfl

/-! ## The evolution theorem: every run respects `Ev` -/

set_option maxHeartbeats 1000000 in
theorem ev_runF : ∀ (fuel : Nat) (t : FTask) (st : St), Ev st (runF fuel t st).1 := by
  intro fuel
  induction fuel with
  | zero =>
    intro t st
    exact Ev_refl st
  | succ fuel IH =>
    intro t st
    cases t with
    | lookup ty ident mbs =>
      rw [runF_lookup_step]
      split
      · exact Ev_refl st
      next node hnode =>
        split
        · exact Ev_refl st
        next decl hdecl =>
          split
          · exact Ev_refl st
          next v hv =>
            have hslot : slotAt st ty ident = some v := by
              show (getNode st.tree ty).bind (fun n => alGet n.vars ident) = some v
              rw [hnode]
              exact hv
            split
            · exact Ev_refl st
            next hconst =>
              split
              next e hexp =>
                split
                · exact Ev_refl st
                next hbe =>
                  have hbe' : v.being_evaluated = false := Bool.eq_false_iff.mpr hbe
                  split
                  · exact Ev_refl st
                  · split
                    · exact Ev_refl st
                    · have hopen : openableV v := ⟨hconst, hbe', by rw [hexp]; rfl⟩
                      rcases hx : runF fuel
                          (.exprT v.location ty e
                            (if decl.type_path.isEmpty then none else some decl.type_path))
                          (markSlot st ty ident) with ⟨st₂, r⟩
                      have hEv₂ : Ev st st₂ := by
                        have h2 := IH (.exprT v.location ty e
                          (if decl.type_path.isEmpty then none else some decl.type_path))
                          (markSlot st ty ident)
                        rw [hx] at h2
                        exact Ev_trans (Ev_markSlot hslot hopen) h2
                      cases r with
                      | error e' => exact hEv₂
                      | ok value => exact Ev_storeConstant_from value hEv₂ hslot hconst hbe'
              next hexp =>
                exact Ev_setConstant _ hslot hconst hexp
    | exprT loc ty e hint =>
      cases e with
      | base u t fs =>
        rw [runF_exprT_base]
        exact Ev_rbind _ _ (IH _ _) fun c =>
          Ev_rbind _ _ (IH _ _) fun c₂ => Ev_refl _
      | binaryOp op l r =>
        rw [runF_exprT_binary]
        exact Ev_rbind _ _ (IH _ _) fun lc =>
          Ev_rbind _ _ (IH _ _) fun rc => Ev_refl _
      | assignOp op l r =>
        rw [runF_exprT_assign]
        exact Ev_refl st
    | exprList loc ty es =>
      cases es with
      | nil => exact Ev_refl st
      | cons e rest =>
        rw [runF_exprList_cons]
        exact Ev_rbind _ _ (IH _ _) fun c =>
          Ev_rbind _ _ (IH _ _) fun cs => Ev_refl _
    | termT loc ty t hint =>
      cases t with
      | null => exact Ev_refl st
      | new type_ args =>
        cases type_ with
        | prefab p =>
          rw [runF_termT_new_prefab]
          exact Ev_rbind _ _ (IH _ _) fun pc =>
            Ev_rbind _ _ (IH _ _) fun argsc => Ev_refl _
        | implicit =>
          rw [runF_termT_new_implicit]
          exact Ev_rbind _ _ (IH _ _) fun argsc => Ev_refl _
        | identT s => exact Ev_refl st
      | list elems =>
        rw [runF_termT_list]
        exact Ev_rbind _ _ (IH _ _) fun out => Ev_refl _
      | call ident args =>
        rw [runF_termT_call]
        split
        · exact Ev_rbind _ _ (IH _ _) fun cs => Ev_refl _
        · split
          · exact Ev_rbind _ _ (IH _ _) fun cs => Ev_refl _
          · split
            · exact Ev_rbind _ _ (IH _ _) fun cs => Ev_refl _
            · split
              · split
                · exact Ev_refl st
                · exact Ev_rbind _ _ (IH _ _) fun s => Ev_refl _
              · exact Ev_refl st
      | prefab p =>
        rw [runF_termT_prefab]
        exact Ev_rbind _ _ (IH _ _) fun pc => Ev_refl _
      | ident s =>
        rw [runF_termT_ident]
        split
        · exact Ev_refl st
        · exact IH _ _
      | string v => exact Ev_refl st
      | resource v => exact Ev_refl st
      | int v => exact Ev_refl st
      | float v => exact Ev_refl st
      | expr e =>
        rw [runF_termT_expr]
        exact IH _ _
    | follows loc ty c fs =>
      cases fs with
      | nil => exact Ev_refl st
      | cons f rest =>
        rw [runF_follows_cons]
        exact Ev_rbind _ _ (IH _ _) fun c₁ => IH _ _
    | followOne loc ty c f =>
      rw [runF_followOne_step]
      split
      · split
        · exact IH _ _
        · exact Ev_refl st
      · exact Ev_refl st
    | listElems loc ty es hint =>
      cases es with
      | nil => exact Ev_refl st
      | cons p rest =>
        obtain ⟨key, val⟩ := p
        cases val with
        | some v =>
          rw [runF_listElems_cons_some]
          split
          · refine Ev_rbind _ _ ?_ fun valc => Ev_rbind _ _ (IH _ _) fun out => Ev_refl _
            exact Ev_trans (Ev_pushStdout st _) (IH _ _)
          · exact Ev_rbind _ _ (IH _ _) fun keyc =>
              Ev_rbind _ _ (IH _ _) fun valc =>
                Ev_rbind _ _ (IH _ _) fun out => Ev_refl _
        | none =>
          rw [runF_listElems_cons_none]
          exact Ev_rbind _ _ (IH _ _) fun keyc =>
            Ev_rbind _ _ (IH _ _) fun out => Ev_refl _
    | rgbArgs loc ty es acc =>
      cases es with
      | nil => exact Ev_refl st
      | cons e rest =>
        rw [runF_rgbArgs_cons]
        refine Ev_rbind _ _ (IH _ _) ?_
        intro c
        cases c <;> first | exact IH _ _ | exact Ev_refl _
    | prefabT loc ty p =>
      rw [runF_prefabT_step]
      exact Ev_rbind _ _ (IH _ _) fun vars => Ev_refl _
    | prefabVars loc ty vs acc =>
      cases vs with
      | nil => exact Ev_refl st
      | cons p rest =>
        obtain ⟨k, v⟩ := p
        rw [runF_prefabVars_cons]
        exact Ev_rbind _ _ (IH _ _) fun c => IH _ _
    | newArgs loc ty args =>
      cases args with
      | none => exact Ev_refl st
      | some es =>
        rw [runF_newArgs_some]
        exact Ev_rbind _ _ (IH _ _) fun cs => Ev_refl _
    | walk loc idx ident mbs =>
      cases idx with
      | none => exact Ev_refl st
      | some ty =>
        rw [runF_walk_some]
        rcases hx : runF fuel (.lookup ty ident mbs)
            (pushStdout st ("searching type #" ++ toString ty)) with ⟨st₁, r⟩
        have hEv₁ : Ev st st₁ := by
          have h2 := IH (.lookup ty ident mbs)
            (pushStdout st ("searching type #" ++ toString ty))
          rw [hx] at h2
          exact Ev_trans (Ev_pushStdout st _) h2
        cases r with
        | ok lk =>
          cases lk with
          | found tp v => exact hEv₁
          | next i => exact Ev_trans hEv₁ (IH _ _)
        | error f =>
          cases f with
          | err e => exact hEv₁
          | panicked m => exact hEv₁
          | fuelOut => exact hEv₁

theorem ev_evalKeys : ∀ (keys : List String) (fuel ty : Nat) (st : St),
    Ev st (evalKeys fuel ty st keys).1 := by
  intro keys
  induction keys with
  | nil => intro fuel ty st; exact Ev_refl st
  | cons key rest ih =>
    intro fuel ty st
    show Ev st (if _ then evalKeys fuel ty st rest else _).1
    split
    · exact ih fuel ty st
    · rcases hx : constant_ident_lookup fuel st ty key false with ⟨st₁, r⟩
      have hEv₁ : Ev st st₁ := by
        have h2 := ev_runF fuel (.lookup ty key false) st
        rw [show runF fuel (.lookup ty key false) st = (st₁, r) from hx] at h2
        exact h2
      cases r with
      | ok lk =>
        cases lk with
        | found tp c => exact Ev_trans hEv₁ (ih fuel ty st₁)
        | next i =>
          show Ev st (match getNode st₁.tree ty with
            | some node => (st₁, Except.error (Failure.panicked (key ++ " " ++ node.path)))
            | none => (st₁, Except.error (Failure.panicked "node_weight unwrap"))).1
          split <;> exact hEv₁
      | error e => exact hEv₁

theorem ev_evalNodes : ∀ (tys : List Nat) (fuel : Nat) (st : St),
    Ev st (evalNodes fuel st tys).1 := by
  intro tys
  induction tys with
  | nil => intro fuel st; exact Ev_refl st
  | cons ty rest ih =>
    intro fuel st
    show Ev st (match getNode st.tree ty with
      | none => (st, Except.error (Failure.panicked "node_weight unwrap"))
      | some node =>
        match evalKeys fuel ty st (node.vars.map Prod.fst) with
        | (st₁, .ok ()) => evalNodes fuel st₁ rest
        | (st₁, .error e) => (st₁, .error e)).1
    split
    · exact Ev_refl st
    next node hnode =>
      rcases hx : evalKeys fuel ty st (node.vars.map Prod.fst) with ⟨st₁, r⟩
      have hEv₁ : Ev st st₁ := by
        have h2 := ev_evalKeys (node.vars.map Prod.fst) fuel ty st
        rw [hx] at h2
        exact h2
      cases r with
      | ok u =>
        cases u
        exact Ev_trans hEv₁ (ih fuel st₁)
      | error e => exact hEv₁

theorem ev_evaluate_all (fuel : Nat) (st : St) : Ev st (evaluate_all fuel st).1 :=
  ev_evalNodes _ fuel st

/-! ### Slot lookup through an evolution -/

theorem alGet_forall₂ : ∀ {vs vs' : List (String × VarValue)},
    List.Forall₂ EvPair vs vs' → ∀ {key : String} {v : VarValue},
      alGet vs key = some v → ∃ v', alGet vs' key = some v' ∧ EvSlot v v' := by
  intro vs vs' h
  induction h with
  | nil => intro key v hv; cases hv
  | cons hp htail ih =>
    rename_i p q vs₀ vs₁
    intro key v hv
    obtain ⟨k, v₀⟩ := p
    obtain ⟨k₁, v₁⟩ := q
    obtain ⟨hk, hs⟩ := hp
    by_cases hkey : k = key
    · refine ⟨v₁, ?_, ?_⟩
      · show (if k₁ = key then some v₁ else alGet vs₁ key) = some v₁
        rw [if_pos (hk.trans hkey)]
      · have : v₀ = v := by
          have hv' : (if k = key then some v₀ else alGet vs₀ key) = some v := hv
          rw [if_pos hkey] at hv'
          exact Option.some.inj hv'
        exact this ▸ hs
    · have hv' : alGet vs₀ key = some v := by
        have hv'' : (if k = key then some v₀ else alGet vs₀ key) = some v := hv
        rwa [if_neg hkey] at hv''
      obtain ⟨v', hget', hs'⟩ := ih hv'
      refine ⟨v', ?_, hs'⟩
      show (if k₁ = key then some v₁ else alGet vs₁ key) = some v'
      rw [if_neg (fun hh => hkey (hk.symm.trans hh))]
      exact hget'

theorem slotAt_of_Ev {st st' : St} (h : Ev st st') {ty : Nat} {id : String} {v : VarValue}
    (hv : slotAt st ty id = some v) :
    ∃ v', slotAt st' ty id = some v' ∧ EvSlot v v' := by
  obtain ⟨⟨-, hnodes⟩, -, -, -⟩ := h
  cases hn : st.tree.nodes.get? ty with
  | none =>
    exfalso
    have : slotAt st ty id = none := by
      show (st.tree.nodes.get? ty).bind (fun n => alGet n.vars id) = none
      rw [hn]
      rfl
    rw [this] at hv
    cases hv
  | some n =>
    obtain ⟨n', hget', hnn'⟩ := forall₂_get?_left hnodes hn
    have halg : alGet n.vars id = some v := by
      have : slotAt st ty id = alGet n.vars id := by
        show (st.tree.nodes.get? ty).bind (fun n => alGet n.vars id) = _
        rw [hn]
        rfl
      rw [this] at hv
      exact hv
    obtain ⟨v', hget'', hs⟩ := alGet_forall₂ hnn'.2.2.2 halg
    refine ⟨v', ?_, hs⟩
    show (st'.tree.nodes.get? ty).bind (fun n => alGet n.vars id) = some v'
    rw [hget']
    exact hget''

/-! ## C4: memoization and write-once constants -/

/-- C4: once a slot's `constant` is set it is never cleared or replaced —
any later lookup of the same (class, name) pair short-circuits on the
stored constant without touching the state, any evaluator run preserves
the stored value verbatim, and a whole `evaluate_all` phase starting from
a clean fold log submits each slot's expression to the folder at most
once (the ghost fold log stays duplicate-free). -/
theorem claim_C4 :
    (∀ (fuel ty : Nat) (ident : String) (mbs : Bool) (st : St) (node : TypeNode)
      (decl : VarDeclaration) (v : VarValue) (c : Constant),
      getNode st.tree ty = some node →
      getDeclaration st.tree ty ident = some decl →
      alGet node.vars ident = some v →
      v.constant = some c →
      constant_ident_lookup (fuel + 1) st ty ident mbs
        = (st, .ok (.found decl.type_path c))) ∧
    (∀ (fuel : Nat) (st : St) (ty : Nat) (id : String) (v : VarValue) (c : Constant),
      slotAt st ty id = some v → v.constant = some c →
      ∃ v', slotAt (evaluate_all fuel st).1 ty id = some v'
        ∧ v'.constant = some c ∧ v'.expression = v.expression) ∧
    (∀ (fuel : Nat) (st : St), st.folds = [] →
      (evaluate_all fuel st).1.folds.Nodup) := by
  refine ⟨?_, ?_, ?_⟩
  · intro fuel ty ident mbs st node decl v c hnode hdecl hv hconst
    show runF (fuel + 1) (.lookup ty ident mbs) st = (st, .ok (.found decl.type_path c))
    rw [runF_lookup_step]
    split
    next hn =>
      rw [hnode] at hn
      cases hn
    next node' hn =>
      rw [hnode] at hn
      injection hn with hn
      subst hn
      split
      next hd =>
        rw [hdecl] at hd
        cases hd
      next decl' hd =>
        rw [hdecl] at hd
        injection hd with hd
        subst hd
        split
        next ha =>
          rw [hv] at ha
          cases ha
        next v' ha =>
          rw [hv] at ha
          injection ha with ha
          subst ha
          split
          next c' hcst =>
            rw [hconst] at hcst
            injection hcst with hcst
            subst hcst
            rfl
          next hcst =>
            rw [hconst] at hcst
            cases hcst
  · intro fuel st ty id v c hv hc
    obtain ⟨v', hget, hs⟩ := slotAt_of_Ev (ev_evaluate_all fuel st) hv
    exact ⟨v', hget, hs.2.2.1 c hc, hs.2.1⟩
  · intro fuel st hclean
    have h := (ev_evaluate_all fuel st).2.2.2
    have hFI : FoldsInv st := by
      refine ⟨?_, ?_⟩
      · rw [hclean]
        exact List.nodup_nil
      · intro p hp
        rw [hclean] at hp
        cases hp
    exact (h hFI).1

/-- Witness for C4: the lookup short-circuit at `stDone`, preservation of
its stored constant across a full phase, and a duplicate-free fold log for
the cyclic tree. -/
theorem claim_C4_witness :
    constant_ident_lookup 1 stDone 0 "a" false = (stDone, .ok (.found [] (.int 7))) ∧
    (∃ v', slotAt (evaluate_all 5 stDone).1 0 "a" = some v'
        ∧ v'.constant = some (.int 7) ∧ v'.expression = some (litE 7)) ∧
    (evaluate_all 20 stCycle).1.folds.Nodup :=
  ⟨claim_C4.1 0 0 "a" false stDone _ declC _ (.int 7) rfl rfl rfl rfl,
   claim_C4.2.1 5 stDone 0 "a" ⟨1, some (litE 7), some (.int 7), false⟩ (.int 7) rfl rfl,
   claim_C4.2.2 20 stCycle rfl⟩

/-- C9 (amended): a list element whose key is a bare identifier reduces
the key to `String(identifier)`, and the warning *ident used as list key*
is written directly to standard output by `println!` — it appears on the
run's stdout log (followed only by whatever later folds print), not in any
diagnostic channel. -/
theorem claim_C9_amended (fuel loc ty : Nat) (st : St) (key val : Expression)
    (rest : List (Expression × Option Expression)) (hint : Option TypePath) (s : String)
    (hkey : termOfExpr key = .ident s) :
    (∃ tail, (runF (fuel + 1) (.listElems loc ty ((key, some val) :: rest) hint) st).1.stdout
        = st.stdout ++ ["WARNING: ident used as list key: " ++ s] ++ tail) ∧
    (∀ st' out, runF (fuel + 1) (.listElems loc ty ((key, some val) :: rest) hint) st
        = (st', .ok out) → ∃ valc outRest, out = (.string s, some valc) :: outRest) := by
  have hstep : runF (fuel + 1) (.listElems loc ty ((key, some val) :: rest) hint) st
      = rbind (runF fuel (.exprT loc ty val hint)
          (pushStdout st ("WARNING: ident used as list key: " ++ s))) (fun st₁ valc =>
          rbind (runF fuel (.listElems loc ty rest hint) st₁) fun st₂ out =>
            (st₂, .ok ((Constant.string s, some valc) :: out))) := by
    rw [runF_listElems_cons_some, hkey]
  rcases hx : runF fuel (.exprT loc ty val hint)
      (pushStdout st ("WARNING: ident used as list key: " ++ s)) with ⟨st₁, r₁⟩
  have hEv₁ : Ev (pushStdout st ("WARNING: ident used as list key: " ++ s)) st₁ := by
    have h := ev_runF fuel (.exprT loc ty val hint)
      (pushStdout st ("WARNING: ident used as list key: " ++ s))
    rw [hx] at h
    exact h
  obtain ⟨t₁, ht₁⟩ := hEv₁.2.1
  cases r₁ with
  | error e =>
    have hfinal : runF (fuel + 1) (.listElems loc ty ((key, some val) :: rest) hint) st
        = (st₁, .error e) := by
      rw [hstep, hx]
      rfl
    constructor
    · refine ⟨t₁, ?_⟩
      rw [hfinal]
      show st₁.stdout = st.stdout ++ ["WARNING: ident used as list key: " ++ s] ++ t₁
      rw [ht₁]
      rfl
    · intro st' out h
      rw [hfinal] at h
      injection h with h1 h2
      cases h2
  | ok valc =>
    rcases hy : runF fuel (.listElems loc ty rest hint) st₁ with ⟨st₂, r₂⟩
    have hEv₂ : Ev st₁ st₂ := by
      have h := ev_runF fuel (.listElems loc ty rest hint) st₁
      rw [hy] at h
      exact h
    obtain ⟨t₂, ht₂⟩ := hEv₂.2.1
    cases r₂ with
    | error e =>
      have hfinal : runF (fuel + 1) (.listElems loc ty ((key, some val) :: rest) hint) st
          = (st₂, .error e) := by
        rw [hstep, hx]
        show rbind (runF fuel (.listElems loc ty rest hint) st₁) _ = _
        rw [hy]
        rfl
      constructor
      · refine ⟨t₁ ++ t₂, ?_⟩
        rw [hfinal]
        show st₂.stdout = st.stdout ++ ["WARNING: ident used as list key: " ++ s] ++ (t₁ ++ t₂)
        rw [ht₂, ht₁, List.append_assoc]
        rfl
      · intro st' out h
        rw [hfinal] at h
        injection h with h1 h2
        cases h2
    | ok outRest =>
      have hfinal : runF (fuel + 1) (.listElems loc ty ((key, some val) :: rest) hint) st
          = (st₂, .ok ((Constant.string s, some valc) :: outRest)) := by
        rw [hstep, hx]
        show rbind (runF fuel (.listElems loc ty rest hint) st₁) _ = _
        rw [hy]
        rfl
      constructor
      · refine ⟨t₁ ++ t₂, ?_⟩
        rw [hfinal]
        show st₂.stdout = st.stdout ++ ["WARNING: ident used as list key: " ++ s] ++ (t₁ ++ t₂)
        rw [ht₂, ht₁, List.append_assoc]
        rfl
      · intro st' out h
        rw [hfinal] at h
        injection h with h1 h2
        injection h2 with h2
        exact ⟨valc, outRest, h2.symm⟩

/-- Witness for C9 (amended) at the concrete one-element list. -/
theorem claim_C9_amended_witness :
    (∃ tail, (runF 6 (.listElems 0 0 [(identE "a", some (litE 1))] none) st0).1.stdout
        = st0.stdout ++ ["WARNING: ident used as list key: a"] ++ tail) ∧
    (∀ st' out, runF 6 (.listElems 0 0 [(identE "a", some (litE 1))] none) st0
        = (st', .ok out) → ∃ valc outRest, out = (.string "a", some valc) :: outRest) :=
  claim_C9_amended 5 0 0 st0 (identE "a") (litE 1) [] none "a" rfl

/-! ## Adequacy: arithmetic and monotonicity of the fuel bounds -/

theorem esize_pos (w : Nat) (e : Expression) : 1 ≤ esize w e := by
  cases e <;> simp [esize] <;> omega

theorem tsize_pos (w : Nat) (t : Term) : 1 ≤ tsize w t := by
  cases t <;> simp [tsize] <;> omega

theorem fsizes_pos (w : Nat) (fs : List Follow) : 1 ≤ fsizes w fs := by
  cases fs <;> simp [fsizes] <;> omega

theorem lsize_pos (w : Nat) (es : List Expression) : 1 ≤ lsize w es := by
  cases es <;> simp [lsize] <;> omega

theorem elsize_pos (w : Nat) (es : List (Expression × Option Expression)) :
    1 ≤ elsize w es := by
  cases es with
  | nil => simp [elsize]
  | cons p rest =>
    obtain ⟨k, v⟩ := p
    cases v <;> simp [elsize] <;> omega

theorem rsize_pos (w : Nat) (es : List Expression) : 1 ≤ rsize w es := by
  cases es <;> simp [rsize] <;> omega

theorem pvsize_pos (w : Nat) (vs : List (String × Expression)) : 1 ≤ pvsize w vs := by
  cases vs with
  | nil => simp [pvsize]
  | cons p rest =>
    obtain ⟨k, v⟩ := p
    simp [pvsize]
    omega

theorem nasize_pos (w : Nat) (args : Option (List Expression)) : 1 ≤ nasize w args := by
  cases args <;> simp [nasize] <;> omega

theorem psize_pos (w : Nat) (p : PrefabAst) : 1 ≤ psize w p := by
  cases p
  simp [psize]

theorem taskWeight_pos (st : St) (t : FTask) : 1 ≤ taskWeight st t := by
  cases t with
  | lookup => simp [taskWeight]
  | exprT _ _ e _ => exact esize_pos _ e
  | exprList _ _ es => exact lsize_pos _ es
  | termT _ _ t _ => exact tsize_pos _ t
  | follows _ _ _ fs => exact fsizes_pos _ fs
  | followOne _ _ _ f => cases f <;> simp [taskWeight, fsize]
  | listElems _ _ es _ => exact elsize_pos _ es
  | rgbArgs _ _ es _ => exact rsize_pos _ es
  | prefabT _ _ p => exact psize_pos _ p
  | prefabVars _ _ vs _ => exact pvsize_pos _ vs
  | newArgs _ _ args => exact nasize_pos _ args
  | walk _ idx _ _ => cases idx <;> simp [taskWeight]

theorem sum_le_of_forall₂ {α : Type} {R : α → α → Prop} (f : α → Nat)
    (hR : ∀ a b, R a b → f b ≤ f a) :
    ∀ {l l' : List α}, List.Forall₂ R l l' → (l'.map f).sum ≤ (l.map f).sum := by
  intro l l' h
  induction h with
  | nil => exact Nat.le_refl 0
  | cons hab htail ih =>
    simp only [List.map_cons, List.sum_cons]
    exact Nat.add_le_add (hR _ _ hab) ih

theorem slotContribution_mono (w : Nat) {v v' : VarValue} (h : EvSlot v v') :
    slotContribution w v' ≤ slotContribution w v := by
  obtain ⟨hloc, hexpr, hconst, hbe⟩ := h
  rcases hE : v'.expression with - | e
  · simp [slotContribution, hE]
  · rcases hC : v'.constant with - | c
    · cases hB : v'.being_evaluated with
      | true => simp [slotContribution, hE, hB]
      | false =>
        have hvE : v.expression = some e := hexpr.symm.trans hE
        have hvC : v.constant = none := by
          rcases hq : v.constant with - | c₀
          · rfl
          · exact absurd ((hconst c₀ hq).symm.trans hC) (by simp)
        have hvB : v.being_evaluated = false := by
          cases hq : v.being_evaluated with
          | false => rfl
          | true => exact absurd ((hbe hq).1.symm.trans hB) (by simp)
        simp [slotContribution, hE, hC, hB, hvE, hvC, hvB]
    · simp [slotContribution, hE, hC]

theorem length_of_Ev {st st' : St} (h : Ev st st') :
    st'.tree.nodes.length = st.tree.nodes.length :=
  (List.Forall₂.length_eq h.1.2).symm

theorem nodePhi_mono (w : Nat) {a b : TypeNode} (h : EvNode a b) :
    nodePhi w b ≤ nodePhi w a :=
  sum_le_of_forall₂ _ (fun _ _ hpq => slotContribution_mono w hpq.2) h.2.2.2

theorem phi_of_Ev {st st' : St} (h : Ev st st') : phi st' ≤ phi st := by
  have hw : wOf st' = wOf st := by
    unfold wOf
    rw [length_of_Ev h]
  show treePhi (wOf st') st'.tree ≤ treePhi (wOf st) st.tree
  rw [hw]
  exact sum_le_of_forall₂ (nodePhi (wOf st)) (fun _ _ hab => nodePhi_mono _ hab) h.1.2

theorem forall₂_get?_right {α : Type} {R : α → α → Prop} :
    ∀ {l l' : List α}, List.Forall₂ R l l' → ∀ {i : Nat} {b : α},
      l'.get? i = some b → ∃ a, l.get? i = some a ∧ R a b := by
  intro l l' h
  induction h with
  | nil => intro i b hb; cases hb
  | cons hab htail ih =>
    intro i b hb
    cases i with
    | zero =>
      refine ⟨_, rfl, ?_⟩
      cases hb
      exact hab
    | succ j => exact ih hb

theorem WF_of_Ev {st st' : St} (h : Ev st st') (hWF : WFparents st.tree) :
    WFparents st'.tree := by
  intro i n' p hget hp
  obtain ⟨n, hgetn, hnn⟩ := forall₂_get?_right h.1.2 hget
  refine hWF i n p hgetn ?_
  rw [← hnn.2.1]
  exact hp

theorem listModify_length {α : Type} (g : α → α) :
    ∀ (i : Nat) (l : List α), (listModify g i l).length = l.length := by
  intro i
  induction i with
  | zero =>
    intro l
    cases l <;> rfl
  | succ j ih =>
    intro l
    cases l with
    | nil => rfl
    | cons a rest =>
      show (a :: listModify g j rest).length = (a :: rest).length
      simp [ih rest]

theorem sum_map_listModify {α : Type} (f : α → Nat) (g : α → α) :
    ∀ (l : List α) (i : Nat) (a : α), l.get? i = some a →
      ((listModify g i l).map f).sum + f a = (l.map f).sum + f (g a) := by
  intro l
  induction l with
  | nil =>
    intro i a ha
    cases i <;> cases ha
  | cons x rest ih =>
    intro i a ha
    cases i with
    | zero =>
      injection ha with ha
      subst ha
      show ((g x :: rest).map f).sum + f x = ((x :: rest).map f).sum + f (g x)
      simp only [List.map_cons, List.sum_cons]
      omega
    | succ j =>
      show ((x :: listModify g j rest).map f).sum + f a = ((x :: rest).map f).sum + f (g a)
      simp only [List.map_cons, List.sum_cons]
      have := ih j a ha
      omega

theorem sum_map_alUpd {α : Type} (f : α → Nat) (g : α → α) :
    ∀ (l : List (String × α)) (key : String) (v : α), alGet l key = some v →
      ((alUpd l key g).map fun p => f p.2).sum + f v
        = (l.map fun p => f p.2).sum + f (g v) := by
  intro l
  induction l with
  | nil => intro key v hv; cases hv
  | cons x rest ih =>
    intro key v hv
    obtain ⟨k, a⟩ := x
    by_cases hk : k = key
    · have hv' : a = v := by
        have : (if k = key then some a else alGet rest key) = some v := hv
        rw [if_pos hk] at this
        exact Option.some.inj this
      subst hv'
      show ((if k = key then (k, g a) :: rest else (k, a) :: alUpd rest key g).map
          fun p => f p.2).sum + f a = _
      rw [if_pos hk]
      simp only [List.map_cons, List.sum_cons]
      omega
    · have hv' : alGet rest key = some v := by
        have : (if k = key then some a else alGet rest key) = some v := hv
        rwa [if_neg hk] at this
      show ((if k = key then (k, g a) :: rest else (k, a) :: alUpd rest key g).map
          fun p => f p.2).sum + f v = _
      rw [if_neg hk]
      simp only [List.map_cons, List.sum_cons]
      have := ih key v hv'
      omega

theorem wOf_markSlot (st : St) (ty : Nat) (id : String) :
    wOf (markSlot st ty id) = wOf st := by
  show 2 * (listModify _ ty st.tree.nodes).length + 6 = 2 * st.tree.nodes.length + 6
  rw [listModify_length]

theorem phi_markSlot {st : St} {ty : Nat} {id : String} {v : VarValue} {e : Expression}
    (hv : slotAt st ty id = some v) (hc : v.constant = none)
    (hb : v.being_evaluated = false) (he : v.expression = some e) :
    phi (markSlot st ty id) + (esize (wOf st) e + 3) = phi st := by
  cases hn : st.tree.nodes.get? ty with
  | none =>
    exfalso
    have : slotAt st ty id = none := by
      show (st.tree.nodes.get? ty).bind (fun n => alGet n.vars id) = none
      rw [hn]
      rfl
    rw [this] at hv
    cases hv
  | some n =>
    have halg : alGet n.vars id = some v := by
      have h1 : slotAt st ty id = alGet n.vars id := by
        show (st.tree.nodes.get? ty).bind (fun n => alGet n.vars id) = _
        rw [hn]
        rfl
      rw [h1] at hv
      exact hv
    have hwm := wOf_markSlot st ty id
    set w := wOf st with hwdef
    set fmark : VarValue → VarValue := fun vv => { vv with being_evaluated := true } with hfm
    set gnode : TypeNode → TypeNode := fun nd => { nd with vars := alUpd nd.vars id fmark } with hgn
    have hTree : phi (markSlot st ty id)
        = ((listModify gnode ty st.tree.nodes).map (nodePhi w)).sum := by
      show treePhi (wOf (markSlot st ty id)) _ = _
      rw [hwm]
      rfl
    have hNode := sum_map_listModify (nodePhi w) gnode st.tree.nodes ty n hn
    have hVars := sum_map_alUpd (slotContribution w) fmark n.vars id v halg
    have hCv : slotContribution w v = esize w e + 3 := by
      simp [slotContribution, he, hc, hb]
    have hCmark : slotContribution w (fmark v) = 0 := by
      simp [hfm, slotContribution, he]
    have hNodeUpd : nodePhi w (gnode n)
        = ((alUpd n.vars id fmark).map fun p => slotContribution w p.2).sum := rfl
    have hNodeN : nodePhi w n = (n.vars.map fun p => slotContribution w p.2).sum := rfl
    have hPhi : phi st = (st.tree.nodes.map (nodePhi w)).sum := rfl
    rw [hTree, hPhi]
    rw [hNodeUpd, hNodeN] at hNode
    omega

theorem taskWeight_congr {st st' : St}
    (h : st'.tree.nodes.length = st.tree.nodes.length) (t : FTask) :
    taskWeight st' t = taskWeight st t := by
  have hw : wOf st' = wOf st := by
    show 2 * st'.tree.nodes.length + 6 = 2 * st.tree.nodes.length + 6
    rw [h]
  cases t with
  | walk loc idx ident mbs => cases idx <;> simp [taskWeight, h]
  | lookup ty ident mbs => rfl
  | exprT loc ty e hint => simp [taskWeight, hw]
  | exprList loc ty es => simp [taskWeight, hw]
  | termT loc ty t hint => simp [taskWeight, hw]
  | follows loc ty c fs => simp [taskWeight, hw]
  | followOne loc ty c f => simp [taskWeight, hw]
  | listElems loc ty es hint => simp [taskWeight, hw]
  | rgbArgs loc ty es acc => simp [taskWeight, hw]
  | prefabT loc ty p => simp [taskWeight, hw]
  | prefabVars loc ty vs acc => simp [taskWeight, hw]
  | newArgs loc ty args => simp [taskWeight, hw]

theorem rbind_ne {α β : Type} (x : St × Except Failure α)
    (f : St → α → St × Except Failure β) (hx : x.2 ≠ .error .fuelOut)
    (hf : ∀ a, x.2 = .ok a → (f x.1 a).2 ≠ .error .fuelOut) :
    (rbind x f).2 ≠ .error .fuelOut := by
  obtain ⟨st₁, r⟩ := x
  cases r with
  | ok a => exact hf a rfl
  | error e => simpa [rbind] using hx

theorem unaryK_ne (loc : Nat) (c : Constant) (op : UnaryOp) :
    unaryK loc c op ≠ .error .fuelOut := by
  cases op <;> cases c <;> simp [unaryK]

theorem applyUnarys_ne (loc : Nat) :
    ∀ (us : List UnaryOp) (c : Constant), applyUnarys loc c us ≠ .error .fuelOut := by
  intro us
  induction us with
  | nil =>
    intro c
    simp [applyUnarys]
  | cons op rest ih =>
    intro c
    show (match unaryK loc c op with
          | .ok c₁ => applyUnarys loc c₁ rest
          | .error e => .error e) ≠ .error .fuelOut
    cases hu : unaryK loc c op with
    | ok c₁ =>
      simp only [hu]
      exact ih c₁
    | error e =>
      simp only [hu]
      exact fun h => unaryK_ne loc c op (hu.trans h)

set_option maxHeartbeats 1000000 in
theorem binaryK_ne (loc : Nat) (l r : Constant) (op : BinaryOp) :
    binaryK loc l r op ≠ .error .fuelOut := by
  cases op <;> cases l <;> cases r <;> simp only [binaryK] <;>
    (try split) <;> (try split) <;> simp

theorem tsize_termOfExpr (w : Nat) (e : Expression) :
    tsize w (termOfExpr e) ≤ 1 + esize w e := by
  cases e with
  | base u t fs =>
    cases u with
    | nil =>
      cases fs with
      | nil =>
        simp [termOfExpr, esize, fsizes]
        omega
      | cons f fs' => simp [termOfExpr, tsize]
    | cons op u' => simp [termOfExpr, tsize]
  | binaryOp op lhs rhs => simp [termOfExpr, tsize]
  | assignOp op lhs rhs => simp [termOfExpr, tsize]

theorem FBound_step {st st' : St} (hEv : Ev st st') (t : FTask) :
    FBound st' t ≤ phi st + taskWeight st t := by
  have h1 := phi_of_Ev hEv
  have h2 := taskWeight_congr (length_of_Ev hEv) t
  show phi st' + taskWeight st' t ≤ phi st + taskWeight st t
  omega

theorem lookup_next_some {fuel ty : Nat} {ident : String} {mbs : Bool} {st st₁ : St}
    {p : Nat} (h : runF fuel (.lookup ty ident mbs) st = (st₁, .ok (.next (some p)))) :
    ∃ node, st.tree.nodes.get? ty = some node ∧ node.parent = some p := by
  cases fuel with
  | zero =>
    rw [runF_zero] at h
    simp at h
  | succ f =>
    rw [runF_lookup_step] at h
    split at h
    · simp at h
    next node hnode =>
      split at h
      · simp at h
      next decl hdecl =>
        split at h
        · refine ⟨node, hnode, ?_⟩
          simp [Prod.mk.injEq] at h
          exact h.2
        next v hv =>
          split at h
          · simp at h
          next hconst =>
            split at h
            next e hexp =>
              split at h
              · simp at h
              · split at h
                · simp at h
                · split at h
                  · simp at h
                  · rcases hy : runF f (.exprT v.location ty e
                        (if decl.type_path.isEmpty then none else some decl.type_path))
                        (markSlot st ty ident) with ⟨st₂, r₂⟩
                    rw [hy] at h
                    cases r₂ with
                    | ok value => simp [rbind] at h
                    | error e' => simp [rbind] at h
            next hexp =>
              simp at h

set_option maxHeartbeats 4000000 in
theorem adequacy : ∀ (fuel : Nat) (t : FTask) (st : St), WFparents st.tree →
    FBound st t ≤ fuel → (runF fuel t st).2 ≠ .error .fuelOut := by
  intro fuel
  induction fuel with
  | zero =>
    intro t st hWF hF
    exfalso
    have h1 := taskWeight_pos st t
    have h2 : phi st + taskWeight st t ≤ 0 := hF
    omega
  | succ fuel IH =>
    intro t st hWF hF
    cases t with
    | lookup ty ident mbs =>
      have hF' : phi st + 3 ≤ fuel + 1 := hF
      rw [runF_lookup_step]
      split
      · simp
      next node hnode =>
        split
        · simp
        next decl hdecl =>
          split
          · simp
          next v hv =>
            have hslot : slotAt st ty ident = some v := by
              show (getNode st.tree ty).bind (fun n => alGet n.vars ident) = some v
              rw [hnode]
              exact hv
            split
            · simp
            next hconst =>
              split
              next e hexp =>
                split
                · simp
                next hbe =>
                  have hbe' : v.being_evaluated = false := Bool.eq_false_iff.mpr hbe
                  split
                  · simp
                  · split
                    · simp
                    · have hopen : openableV v := ⟨hconst, hbe', by rw [hexp]; rfl⟩
                      have hEvm : Ev st (markSlot st ty ident) := Ev_markSlot hslot hopen
                      refine rbind_ne _ _ (IH _ _ (WF_of_Ev hEvm hWF) ?_) ?_
                      · have hdrop := phi_markSlot hslot hconst hbe' hexp
                        show phi (markSlot st ty ident)
                            + esize (wOf (markSlot st ty ident)) e ≤ fuel
                        rw [wOf_markSlot]
                        omega
                      · intro value hok
                        simp
              next hexp =>
                simp
    | exprT loc ty e hint =>
      cases e with
      | base u t fs =>
        have hF' := hF
        simp only [FBound, taskWeight, esize] at hF'
        have h1 := tsize_pos (wOf st) t
        have h2 := fsizes_pos (wOf st) fs
        rw [runF_exprT_base]
        refine rbind_ne _ _ (IH _ _ hWF ?_) ?_
        · show phi st + tsize (wOf st) t ≤ fuel
          omega
        · intro c hok
          have hEv := ev_runF fuel
            (.termT loc ty t (if fs.isEmpty && u.isEmpty then hint else none)) st
          refine rbind_ne _ _ (IH _ _ (WF_of_Ev hEv hWF)
            (le_trans (FBound_step hEv _) ?_)) ?_
          · show phi st + fsizes (wOf st) fs ≤ fuel
            omega
          · intro c₂ hok₂
            exact applyUnarys_ne loc u.reverse c₂
      | binaryOp op lhs rhs =>
        have hF' := hF
        simp only [FBound, taskWeight, esize] at hF'
        have h1 := esize_pos (wOf st) lhs
        have h2 := esize_pos (wOf st) rhs
        rw [runF_exprT_binary]
        refine rbind_ne _ _ (IH _ _ hWF ?_) ?_
        · show phi st + esize (wOf st) lhs ≤ fuel
          omega
        · intro lc hok
          have hEv := ev_runF fuel (.exprT loc ty lhs none) st
          refine rbind_ne _ _ (IH _ _ (WF_of_Ev hEv hWF)
            (le_trans (FBound_step hEv _) ?_)) ?_
          · show phi st + esize (wOf st) rhs ≤ fuel
            omega
          · intro rc hok₂
            exact binaryK_ne loc lc rc op
      | assignOp op lhs rhs =>
        rw [runF_exprT_assign]
        simp
    | exprList loc ty es =>
      cases es with
      | nil =>
        rw [runF_exprList_nil]
        simp
      | cons e rest =>
        have hF' := hF
        simp only [FBound, taskWeight, lsize] at hF'
        have h1 := esize_pos (wOf st) e
        have h2 := lsize_pos (wOf st) rest
        rw [runF_exprList_cons]
        refine rbind_ne _ _ (IH _ _ hWF ?_) ?_
        · show phi st + esize (wOf st) e ≤ fuel
          omega
        · intro c hok
          have hEv := ev_runF fuel (.exprT loc ty e none) st
          refine rbind_ne _ _ (IH _ _ (WF_of_Ev hEv hWF)
            (le_trans (FBound_step hEv _) ?_)) ?_
          · show phi st + lsize (wOf st) rest ≤ fuel
            omega
          · intro cs hok₂
            simp
    | termT loc ty t hint =>
      cases t with
      | null =>
        rw [runF_termT_null]
        simp
      | new type_ args =>
        cases type_ with
        | prefab p =>
          have hF' := hF
          simp only [FBound, taskWeight, tsize, ntsize] at hF'
          have h1 := psize_pos (wOf st) p
          have h2 := nasize_pos (wOf st) args
          rw [runF_termT_new_prefab]
          refine rbind_ne _ _ (IH _ _ hWF ?_) ?_
          · show phi st + psize (wOf st) p ≤ fuel
            omega
          · intro pc hok
            have hEv := ev_runF fuel (.prefabT loc ty p) st
            refine rbind_ne _ _ (IH _ _ (WF_of_Ev hEv hWF)
              (le_trans (FBound_step hEv _) ?_)) ?_
            · show phi st + nasize (wOf st) args ≤ fuel
              omega
            · intro argsc hok₂
              simp
        | implicit =>
          have hF' := hF
          simp only [FBound, taskWeight, tsize, ntsize] at hF'
          rw [runF_termT_new_implicit]
          refine rbind_ne _ _ (IH _ _ hWF ?_) ?_
          · show phi st + nasize (wOf st) args ≤ fuel
            omega
          · intro argsc hok
            simp
        | identT s =>
          rw [runF_termT_new_ident]
          simp
      | list elems =>
        have hF' := hF
        simp only [FBound, taskWeight, tsize] at hF'
        rw [runF_termT_list]
        refine rbind_ne _ _ (IH _ _ hWF ?_) ?_
        · show phi st + elsize (wOf st) elems ≤ fuel
          omega
        · intro out hok
          simp
      | call ident args =>
        have hF' := hF
        simp only [FBound, taskWeight, tsize] at hF'
        have h1 := lsize_pos (wOf st) args
        have h2 := rsize_pos (wOf st) args
        rw [runF_termT_call]
        split
        · refine rbind_ne _ _ (IH _ _ hWF ?_) ?_
          · show phi st + lsize (wOf st) args ≤ fuel
            omega
          · intro cs hok
            simp
        · split
          · refine rbind_ne _ _ (IH _ _ hWF ?_) ?_
            · show phi st + lsize (wOf st) args ≤ fuel
              omega
            · intro cs hok
              simp
          · split
            · refine rbind_ne _ _ (IH _ _ hWF ?_) ?_
              · show phi st + lsize (wOf st) args ≤ fuel
                omega
              · intro cs hok
                simp
            · split
              · split
                · simp
                · refine rbind_ne _ _ (IH _ _ hWF ?_) ?_
                  · show phi st + rsize (wOf st) args ≤ fuel
                    omega
                  · intro s hok
                    simp
              · simp
      | prefab p =>
        have hF' := hF
        simp only [FBound, taskWeight, tsize] at hF'
        rw [runF_termT_prefab]
        refine rbind_ne _ _ (IH _ _ hWF ?_) ?_
        · show phi st + psize (wOf st) p ≤ fuel
          omega
        · intro pc hok
          simp
      | ident s =>
        have hF' := hF
        simp only [FBound, taskWeight, tsize] at hF'
        rw [runF_termT_ident]
        split
        · simp
        · refine IH _ _ hWF ?_
          show phi st + (2 * min ty st.tree.nodes.length + 4) ≤ fuel
          have h1 : min ty st.tree.nodes.length ≤ st.tree.nodes.length :=
            Nat.min_le_right _ _
          have h2 : wOf st = 2 * st.tree.nodes.length + 6 := rfl
          omega
      | string v =>
        rw [runF_termT_string]
        simp
      | resource v =>
        rw [runF_termT_resource]
        simp
      | int v =>
        rw [runF_termT_int]
        simp
      | float v =>
        rw [runF_termT_float]
        simp
      | expr e =>
        have hF' := hF
        simp only [FBound, taskWeight, tsize] at hF'
        rw [runF_termT_expr]
        refine IH _ _ hWF ?_
        show phi st + esize (wOf st) e ≤ fuel
        omega
    | follows loc ty c fs =>
      cases fs with
      | nil =>
        rw [runF_follows_nil]
        simp
      | cons f rest =>
        have hF' := hF
        simp only [FBound, taskWeight, fsizes] at hF'
        have h1 := fsizes_pos (wOf st) rest
        have h2 : 1 ≤ fsize (wOf st) f := by cases f <;> simp [fsize] <;> omega
        rw [runF_follows_cons]
        refine rbind_ne _ _ (IH _ _ hWF ?_) ?_
        · show phi st + fsize (wOf st) f ≤ fuel
          omega
        · intro c₁ hok
          have hEv := ev_runF fuel (.followOne loc ty c f) st
          refine IH _ _ (WF_of_Ev hEv hWF) (le_trans (FBound_step hEv _) ?_)
          show phi st + fsizes (wOf st) rest ≤ fuel
          omega
    | followOne loc ty c f =>
      rw [runF_followOne_step]
      split
      · split
        next idx hidx =>
          have hF' := hF
          simp only [FBound, taskWeight, fsize] at hF'
          refine IH _ _ hWF ?_
          show phi st + (2 * min idx st.tree.nodes.length + 4) ≤ fuel
          have h1 : min idx st.tree.nodes.length ≤ st.tree.nodes.length :=
            Nat.min_le_right _ _
          have h2 : wOf st = 2 * st.tree.nodes.length + 6 := rfl
          omega
        · simp
      · simp
    | listElems loc ty es hint =>
      cases es with
      | nil =>
        rw [runF_listElems_nil]
        simp
      | cons q rest =>
        obtain ⟨key, val⟩ := q
        cases val with
        | some v =>
          have hF' := hF
          simp only [FBound, taskWeight, elsize] at hF'
          have h1 := esize_pos (wOf st) key
          have h2 := esize_pos (wOf st) v
          have h3 := elsize_pos (wOf st) rest
          rw [runF_listElems_cons_some]
          split
          next s hs =>
            refine rbind_ne _ _ (IH _ _ hWF ?_) ?_
            · show phi st + esize (wOf st) v ≤ fuel
              omega
            · intro valc hok
              have hEv : Ev st (runF fuel (.exprT loc ty v hint)
                  (pushStdout st ("WARNING: ident used as list key: " ++ s))).1 :=
                Ev_trans (Ev_pushStdout st _) (ev_runF fuel _ _)
              refine rbind_ne _ _ (IH _ _ (WF_of_Ev hEv hWF)
                (le_trans (FBound_step hEv _) ?_)) ?_
              · show phi st + elsize (wOf st) rest ≤ fuel
                omega
              · intro out hok₂
                simp
          · have h4 := tsize_termOfExpr (wOf st) key
            refine rbind_ne _ _ (IH _ _ hWF ?_) ?_
            · show phi st + tsize (wOf st) (termOfExpr key) ≤ fuel
              omega
            · intro keyc hok
              have hEv := ev_runF fuel (.termT loc ty (termOfExpr key) hint) st
              refine rbind_ne _ _ (IH _ _ (WF_of_Ev hEv hWF)
                (le_trans (FBound_step hEv _) ?_)) ?_
              · show phi st + esize (wOf st) v ≤ fuel
                omega
              · intro valc hok₂
                have hEv₂ : Ev st (runF fuel (.exprT loc ty v hint)
                    (runF fuel (.termT loc ty (termOfExpr key) hint) st).1).1 :=
                  Ev_trans hEv (ev_runF fuel _ _)
                refine rbind_ne _ _ (IH _ _ (WF_of_Ev hEv₂ hWF)
                  (le_trans (FBound_step hEv₂ _) ?_)) ?_
                · show phi st + elsize (wOf st) rest ≤ fuel
                  omega
                · intro out hok₃
                  simp
        | none =>
          have hF' := hF
          simp only [FBound, taskWeight, elsize] at hF'
          have h1 := esize_pos (wOf st) key
          have h2 := elsize_pos (wOf st) rest
          rw [runF_listElems_cons_none]
          refine rbind_ne _ _ (IH _ _ hWF ?_) ?_
          · show phi st + esize (wOf st) key ≤ fuel
            omega
          · intro keyc hok
            have hEv := ev_runF fuel (.exprT loc ty key hint) st
            refine rbind_ne _ _ (IH _ _ (WF_of_Ev hEv hWF)
              (le_trans (FBound_step hEv _) ?_)) ?_
            · show phi st + elsize (wOf st) rest ≤ fuel
              omega
            · intro out hok₂
              simp
    | rgbArgs loc ty es acc =>
      cases es with
      | nil =>
        rw [runF_rgbArgs_nil]
        simp
      | cons e rest =>
        have hF' := hF
        simp only [FBound, taskWeight, rsize] at hF'
        have h1 := esize_pos (wOf st) e
        have h2 := rsize_pos (wOf st) rest
        rw [runF_rgbArgs_cons]
        refine rbind_ne _ _ (IH _ _ hWF ?_) ?_
        · show phi st + esize (wOf st) e ≤ fuel
          omega
        · intro c hok
          have hEv := ev_runF fuel (.exprT loc ty e none) st
          cases c <;>
            first
            | exact fun h => Failure.noConfusion (Except.error.inj h)
            | (refine IH _ _ (WF_of_Ev hEv hWF) (le_trans (FBound_step hEv _) ?_);
               show phi st + rsize (wOf st) rest ≤ fuel;
               omega)
    | prefabT loc ty p =>
      cases p with
      | mk path vars =>
        have hF' := hF
        simp only [FBound, taskWeight, psize] at hF'
        rw [runF_prefabT_step]
        refine rbind_ne _ _ (IH _ _ hWF ?_) ?_
        · show phi st + pvsize (wOf st) vars ≤ fuel
          omega
        · intro vars₁ hok
          simp
    | prefabVars loc ty vs acc =>
      cases vs with
      | nil =>
        rw [runF_prefabVars_nil]
        simp
      | cons q rest =>
        obtain ⟨k, v⟩ := q
        have hF' := hF
        simp only [FBound, taskWeight, pvsize] at hF'
        have h1 := esize_pos (wOf st) v
        have h2 := pvsize_pos (wOf st) rest
        rw [runF_prefabVars_cons]
        refine rbind_ne _ _ (IH _ _ hWF ?_) ?_
        · show phi st + esize (wOf st) v ≤ fuel
          omega
        · intro c hok
          have hEv := ev_runF fuel (.exprT loc ty v none) st
          refine IH _ _ (WF_of_Ev hEv hWF) (le_trans (FBound_step hEv _) ?_)
          show phi st + pvsize (wOf st) rest ≤ fuel
          omega
    | newArgs loc ty args =>
      cases args with
      | none =>
        rw [runF_newArgs_none]
        simp
      | some es =>
        have hF' := hF
        simp only [FBound, taskWeight, nasize] at hF'
        rw [runF_newArgs_some]
        refine rbind_ne _ _ (IH _ _ hWF ?_) ?_
        · show phi st + lsize (wOf st) es ≤ fuel
          omega
        · intro cs hok
          simp
    | walk loc idx ident mbs =>
      cases idx with
      | none =>
        rw [runF_walk_none]
        simp
      | some ty =>
        have hF' := hF
        simp only [FBound, taskWeight] at hF'
        rw [runF_walk_some]
        rcases hx : runF fuel (.lookup ty ident mbs)
            (pushStdout st ("searching type #" ++ toString ty)) with ⟨st₁, r⟩
        have hEv₁ : Ev st st₁ := by
          have h2 := ev_runF fuel (.lookup ty ident mbs)
            (pushStdout st ("searching type #" ++ toString ty))
          rw [hx] at h2
          exact Ev_trans (Ev_pushStdout st _) h2
        have hb : FBound (pushStdout st ("searching type #" ++ toString ty))
            (.lookup ty ident mbs) ≤ fuel := by
          show phi st + 3 ≤ fuel
          omega
        have hlk : r ≠ .error .fuelOut := by
          have h3 := IH (.lookup ty ident mbs)
            (pushStdout st ("searching type #" ++ toString ty)) hWF hb
          rw [hx] at h3
          exact h3
        cases r with
        | error f =>
          cases f with
          | err e => simp [walkCont]
          | panicked m => simp [walkCont]
          | fuelOut => exact absurd rfl hlk
        | ok lk =>
          cases lk with
          | found tp v => simp [walkCont]
          | next i =>
            show (runF fuel (.walk loc i ident mbs) st₁).2 ≠ .error .fuelOut
            have hphi := phi_of_Ev hEv₁
            cases i with
            | none =>
              refine IH _ _ (WF_of_Ev hEv₁ hWF) ?_
              show phi st₁ + 1 ≤ fuel
              omega
            | some p =>
              obtain ⟨node, hnode, hp⟩ := lookup_next_some hx
              have hnode' : st.tree.nodes.get? ty = some node := hnode
              have hty : ty < st.tree.nodes.length := by
                rcases List.get?_eq_some.mp hnode' with ⟨hlt, -⟩
                exact hlt
              have hplt : p < ty := hWF ty node p hnode' hp
              have hlen := length_of_Ev hEv₁
              refine IH _ _ (WF_of_Ev hEv₁ hWF) ?_
              show phi st₁ + (2 * min p st₁.tree.nodes.length + 4) ≤ fuel
              rw [hlen]
              omega

theorem evalKeys_ne (fuel ty : Nat) : ∀ (keys : List String) (st : St),
    WFparents st.tree → phi st + 3 ≤ fuel →
    (evalKeys fuel ty st keys).2 ≠ .error .fuelOut := by
  intro keys
  induction keys with
  | nil =>
    intro st hWF hb
    simp [evalKeys]
  | cons key rest ih =>
    intro st hWF hb
    show ((if _ then evalKeys fuel ty st rest else _).2) ≠ .error .fuelOut
    split
    · exact ih st hWF hb
    · rcases hx : constant_ident_lookup fuel st ty key false with ⟨st₁, r⟩
      have hEv₁ : Ev st st₁ := by
        have h2 := ev_runF fuel (.lookup ty key false) st
        rw [show runF fuel (.lookup ty key false) st = (st₁, r) from hx] at h2
        exact h2
      have hne : r ≠ .error .fuelOut := by
        have h3 := adequacy fuel (.lookup ty key false) st hWF
          (show FBound st (.lookup ty key false) ≤ fuel from hb)
        rw [show runF fuel (.lookup ty key false) st = (st₁, r) from hx] at h3
        exact h3
      cases r with
      | ok lk =>
        cases lk with
        | found tp c =>
          refine ih st₁ (WF_of_Ev hEv₁ hWF) ?_
          have := phi_of_Ev hEv₁
          omega
        | next i =>
          show ((match getNode st₁.tree ty with
            | some node => (st₁, Except.error (Failure.panicked (key ++ " " ++ node.path)))
            | none => (st₁, Except.error (Failure.panicked "node_weight unwrap"))).2)
              ≠ .error .fuelOut
          split <;> simp
      | error e => simpa using hne

theorem evalNodes_ne (fuel : Nat) : ∀ (tys : List Nat) (st : St),
    WFparents st.tree → phi st + 3 ≤ fuel →
    (evalNodes fuel st tys).2 ≠ .error .fuelOut := by
  intro tys
  induction tys with
  | nil =>
    intro st hWF hb
    simp [evalNodes]
  | cons ty rest ih =>
    intro st hWF hb
    show ((match getNode st.tree ty with
      | none => (st, Except.error (Failure.panicked "node_weight unwrap"))
      | some node =>
        match evalKeys fuel ty st (node.vars.map Prod.fst) with
        | (st₁, .ok ()) => evalNodes fuel st₁ rest
        | (st₁, .error e) => (st₁, .error e)).2) ≠ .error .fuelOut
    split
    · simp
    next node hnode =>
      rcases hx : evalKeys fuel ty st (node.vars.map Prod.fst) with ⟨st₁, r⟩
      have hEv₁ : Ev st st₁ := by
        have h2 := ev_evalKeys (node.vars.map Prod.fst) fuel ty st
        rw [hx] at h2
        exact h2
      have hne : r ≠ .error .fuelOut := by
        have h3 := evalKeys_ne fuel ty (node.vars.map Prod.fst) st hWF hb
        rw [hx] at h3
        exact h3
      cases r with
      | ok u =>
        cases u
        refine ih st₁ (WF_of_Ev hEv₁ hWF) ?_
        have := phi_of_Ev hEv₁
        omega
      | error e => simpa using hne

/-- The phase terminates: any fuel beyond the potential of the tree is
never exhausted, so the fuel parameter is an artifact of the embedding and
not of the program. -/
theorem evaluate_all_ne (fuel : Nat) (st : St) (hWF : WFparents st.tree)
    (hb : phi st + 3 ≤ fuel) : (evaluate_all fuel st).2 ≠ .error .fuelOut :=
  evalNodes_ne fuel (List.range st.tree.nodes.length) st hWF hb

/-- Re-entering a slot whose `being_evaluated` flag is set fails at once
with the cyclic-reference error, located at the slot's own location. -/
theorem lookup_reentry (fuel ty : Nat) (ident : String) (mbs : Bool) (st : St)
    (node : TypeNode) (decl : VarDeclaration) (v : VarValue) (e : Expression)
    (hnode : getNode st.tree ty = some node)
    (hdecl : getDeclaration st.tree ty ident = some decl)
    (hv : alGet node.vars ident = some v)
    (hconst : v.constant = none) (hexp : v.expression = some e)
    (hbe : v.being_evaluated = true) :
    runF (fuel + 1) (.lookup ty ident mbs) st
      = (st, .error (.err ⟨v.location, "recursive constant reference: " ++ ident⟩)) := by
  simp [runF_lookup_step, hnode, hdecl, hv, hconst, hexp, hbe]

/-- C3: on every class tree whose parent handles decrease (the shape the
tree builder guarantees and the spec's acyclic-graph requirement states),
the phase terminates — any fuel of at least `phi st + 3` is never
exhausted, so the mutual recursion is bounded even when initializer
references form a cycle of any length; and the resolver, when re-entering
a slot whose `being_evaluated` flag is set, fails with the
cyclic-reference error located at that slot's own location. -/
theorem claim_C3 :
    (∀ (st : St) (fuel : Nat), WFparents st.tree → phi st + 3 ≤ fuel →
        (evaluate_all fuel st).2 ≠ .error .fuelOut) ∧
    (∀ (fuel ty : Nat) (ident : String) (mbs : Bool) (st : St) (node : TypeNode)
        (decl : VarDeclaration) (v : VarValue) (e : Expression),
        getNode st.tree ty = some node →
        getDeclaration st.tree ty ident = some decl →
        alGet node.vars ident = some v →
        v.constant = none → v.expression = some e → v.being_evaluated = true →
        runF (fuel + 1) (.lookup ty ident mbs) st
          = (st, .error (.err ⟨v.location, "recursive constant reference: " ++ ident⟩))) :=
  ⟨fun st fuel hWF hb => evaluate_all_ne fuel st hWF hb,
   fun fuel ty ident mbs st node decl v e h1 h2 h3 h4 h5 h6 =>
     lookup_reentry fuel ty ident mbs st node decl v e h1 h2 h3 h4 h5 h6⟩

/-- Witness for C3: the two-variable cycle `a = b; b = a` terminates with
fuel `phi stCycle + 3`, and re-entering the mid-evaluation slot of `stMid`
yields the cyclic-reference error at location 1. -/
theorem claim_C3_witness :
    (evaluate_all (phi stCycle + 3) stCycle).2 ≠ .error .fuelOut ∧
    runF 1 (.lookup 0 "a" false) stMid
      = (stMid, .error (.err ⟨1, "recursive constant reference: a"⟩)) := by
  constructor
  · refine claim_C3.1 stCycle (phi stCycle + 3) ?_ (Nat.le_refl _)
    intro i n p hget hp
    cases i with
    | zero =>
      have hn := Option.some.inj hget
      rw [← hn] at hp
      exact Option.noConfusion hp
    | succ j =>
      simp [stCycle] at hget
  · exact claim_C3.2 0 0 "a" false stMid
      ⟨"/x", none, [("a", ⟨1, some (identE "a"), none, true⟩)], [("a", declC)]⟩
      declC ⟨1, some (identE "a"), none, true⟩ (identE "a")
      rfl rfl rfl rfl rfl rfl

end DM
